import Mathlib

/-
Verification of the building segmentation and reconstruction engine of the
lidar-viewer repository (pointclouds-buildings-extractor), against its
natural-language specification.

The embedding is a shallow one over exact rational arithmetic: points are
triples of rationals, numpy arrays become lists, and the numerical kernels
of `process_buildings_improved.py` (spatial gridding, DBSCAN clustering,
cluster merging, adaptive downsampling, iterative plane extraction, mesh
fallback, metadata) are translated function by function.  Calls into the
external open3d/scipy libraries (voxel downsampling, RANSAC plane fitting,
Poisson/alpha-shape meshing) are modelled from the specification, as noted
in the corresponding doc comments.
-/

namespace LidarViewer

/-- A 3D point with exact rational coordinates (source: rows of the numpy
`points` arrays, `float64` triples `(x, y, z)`). -/
abbrev Q3 := ℚ × ℚ × ℚ

/-- Default point used for out-of-range list accesses. -/
def z3 : Q3 := (0, 0, 0)

/-- Squared Euclidean distance between two 3D points (source:
`np.linalg.norm(p - q)`, squared to stay in exact arithmetic). -/
def sqDist3 (p q : Q3) : ℚ :=
  (p.1 - q.1) ^ 2 + (p.2.1 - q.2.1) ^ 2 + (p.2.2 - q.2.2) ^ 2

/-- Sum of a list of rationals. -/
def qsum (l : List ℚ) : ℚ := l.foldr (· + ·) 0

/-- Minimum of a list of rationals, `0` for the empty list (source:
`np.min` over a nonempty axis slice). -/
def listMin : List ℚ → ℚ
  | [] => 0
  | x :: xs => xs.foldl min x

/-- Maximum of a list of rationals, `0` for the empty list (source:
`np.max` over a nonempty axis slice). -/
def listMax : List ℚ → ℚ
  | [] => 0
  | x :: xs => xs.foldl max x

/-- The x coordinates of a point list (source: `points[:, 0]`). -/
def xsOf (pts : List Q3) : List ℚ := pts.map (·.1)

/-- The y coordinates of a point list (source: `points[:, 1]`). -/
def ysOf (pts : List Q3) : List ℚ := pts.map (·.2.1)

/-- The z coordinates of a point list (source: `points[:, 2]`). -/
def zsOf (pts : List Q3) : List ℚ := pts.map (·.2.2)

/-- Arithmetic-mean centroid of a point list (source: `array.mean(axis=0)`;
for the empty list the rational division by zero yields `(0,0,0)`). -/
def centroid (pts : List Q3) : Q3 :=
  (qsum (xsOf pts) / pts.length, qsum (ysOf pts) / pts.length,
    qsum (zsOf pts) / pts.length)

/-- First-occurrence deduplication with an accumulator of already seen
elements (used to model `np.unique`'s distinct values and the set of
occupied voxels; the accumulator keeps the recursion depth linear, so
concrete runs evaluate inside the kernel). -/
def dedupAcc {α : Type} [DecidableEq α] (seen : List α) : List α → List α
  | [] => []
  | a :: t => if a ∈ seen then dedupAcc seen t else a :: dedupAcc (a :: seen) t

/-- The distinct elements of a list, first occurrences first. -/
def dedupF {α : Type} [DecidableEq α] (l : List α) : List α := dedupAcc [] l

theorem mem_dedupAcc {α : Type} [DecidableEq α] (x : α) :
    ∀ (l seen : List α), x ∈ dedupAcc seen l ↔ x ∈ l ∧ x ∉ seen := by
  intro l
  induction l with
  | nil => intro seen; simp [dedupAcc]
  | cons a t ih =>
    intro seen
    unfold dedupAcc
    by_cases ha : a ∈ seen
    · rw [if_pos ha, ih seen]
      constructor
      · rintro ⟨h1, h2⟩
        exact ⟨List.mem_cons_of_mem a h1, h2⟩
      · rintro ⟨h1, h2⟩
        rcases List.mem_cons.mp h1 with rfl | h1
        · exact absurd ha h2
        · exact ⟨h1, h2⟩
    · rw [if_neg ha]
      constructor
      · intro h
        rcases List.mem_cons.mp h with rfl | h
        · exact ⟨List.mem_cons_self x t, fun hx => absurd hx ha⟩
        · rcases (ih (a :: seen)).mp h with ⟨h1, h2⟩
          refine ⟨List.mem_cons_of_mem a h1, fun hx => h2 (List.mem_cons_of_mem a hx)⟩
      · rintro ⟨h1, h2⟩
        rcases List.mem_cons.mp h1 with rfl | h1
        · exact List.mem_cons_self x _
        · by_cases hxa : x = a
          · rw [hxa]; exact List.mem_cons_self a _
          · refine List.mem_cons_of_mem a ((ih (a :: seen)).mpr ⟨h1, ?_⟩)
            intro hx
            rcases List.mem_cons.mp hx with h | h
            · exact hxa h
            · exact h2 h

theorem mem_dedupF {α : Type} [DecidableEq α] {x : α} {l : List α} :
    x ∈ dedupF l ↔ x ∈ l := by
  unfold dedupF
  rw [mem_dedupAcc]
  simp

theorem nodup_dedupAcc {α : Type} [DecidableEq α] :
    ∀ (l seen : List α), (dedupAcc seen l).Nodup := by
  intro l
  induction l with
  | nil => intro seen; simp [dedupAcc]
  | cons a t ih =>
    intro seen
    unfold dedupAcc
    by_cases ha : a ∈ seen
    · rw [if_pos ha]; exact ih seen
    · rw [if_neg ha]
      refine List.nodup_cons.mpr ⟨?_, ih (a :: seen)⟩
      intro hmem
      exact ((mem_dedupAcc a t (a :: seen)).mp hmem).2 (List.mem_cons_self a seen)

theorem nodup_dedupF {α : Type} [DecidableEq α] (l : List α) :
    (dedupF l).Nodup := nodup_dedupAcc l []

theorem dedupAcc_sublist {α : Type} [DecidableEq α] :
    ∀ (l seen : List α), (dedupAcc seen l).Sublist l := by
  intro l
  induction l with
  | nil => intro seen; simp [dedupAcc]
  | cons a t ih =>
    intro seen
    unfold dedupAcc
    by_cases ha : a ∈ seen
    · rw [if_pos ha]
      exact List.Sublist.trans (ih seen) (List.sublist_cons_self a t)
    · rw [if_neg ha]
      exact List.Sublist.cons₂ a (ih (a :: seen))

theorem dedupF_sublist {α : Type} [DecidableEq α] (l : List α) :
    (dedupF l).Sublist l := dedupAcc_sublist l []

/-! ### SpatialGrid (`create_spatial_grid`, process_buildings_improved.py 116-140) -/

/-- Grid key of a point: floor-divide x and y by the cell size (source:
`np.floor(points[:, 0] / self.grid_size).astype(int)` and likewise for y). -/
def gridKey (g : ℚ) (p : Q3) : ℤ × ℤ := (⌊p.1 / g⌋, ⌊p.2.1 / g⌋)

/-- `create_spatial_grid`: bucket point indices by grid cell.  Each distinct
key occurring among the points becomes one cell holding the indices of the
points with that key (source iterates `np.unique` keys and keeps cells with
`len(indices) > 0`; the model lists cells in first-occurrence order of the
key, which only affects the ordering of the returned cells). -/
def create_spatial_grid (pts : List Q3) (g : ℚ) : List ((ℤ × ℤ) × List ℕ) :=
  let keys := pts.map (gridKey g)
  (dedupF keys).map (fun k =>
    (k, (List.range pts.length).filter (fun i => keys.getD i (0, 0) = k)))

theorem getD_map_eq {α β : Type} (f : α → β) (l : List α) (i : ℕ)
    (h : i < l.length) (d : β) (d' : α) :
    (l.map f).getD i d = f (l.getD i d') := by
  rw [List.getD_eq_getElem _ _ (by simpa using h), List.getD_eq_getElem _ _ h]
  simp

theorem mem_cell_iff (pts : List Q3) (g : ℚ) (k : ℤ × ℤ) (i : ℕ) :
    i ∈ (List.range pts.length).filter
        (fun j => (pts.map (gridKey g)).getD j (0, 0) = k) ↔
      i < pts.length ∧ gridKey g (pts.getD i z3) = k := by
  constructor
  · intro h
    rcases List.mem_filter.mp h with ⟨hr, hk⟩
    have hi : i < pts.length := List.mem_range.mp hr
    refine ⟨hi, ?_⟩
    have := getD_map_eq (gridKey g) pts i hi (0, 0) z3
    rw [this] at hk
    exact of_decide_eq_true hk
  · rintro ⟨hi, hk⟩
    refine List.mem_filter.mpr ⟨List.mem_range.mpr hi, ?_⟩
    rw [getD_map_eq (gridKey g) pts i hi (0, 0) z3]
    exact decide_eq_true hk

theorem nodup_entry_unique {α β : Type} (l : List (α × β))
    (h : (l.map Prod.fst).Nodup) :
    ∀ e₁ ∈ l, ∀ e₂ ∈ l, e₁.1 = e₂.1 → e₁ = e₂ := by
  induction l with
  | nil => intro e₁ h₁; simp at h₁
  | cons a t ih =>
    simp only [List.map_cons, List.nodup_cons] at h
    intro e₁ h₁ e₂ h₂ hfst
    rcases List.mem_cons.mp h₁ with h₁ | h₁ <;>
      rcases List.mem_cons.mp h₂ with h₂ | h₂
    · rw [h₁, h₂]
    · exfalso
      apply h.1
      rw [← h₁, hfst]
      exact List.mem_map_of_mem Prod.fst h₂
    · exfalso
      apply h.1
      rw [← h₂, ← hfst]
      exact List.mem_map_of_mem Prod.fst h₁
    · exact ih h.2 e₁ h₁ e₂ h₂ hfst

theorem grid_fst_nodup (pts : List Q3) (g : ℚ) :
    ((create_spatial_grid pts g).map Prod.fst).Nodup := by
  unfold create_spatial_grid
  simp only [List.map_map]
  have : (Prod.fst ∘ fun k : ℤ × ℤ =>
      (k, (List.range pts.length).filter
        (fun i => (pts.map (gridKey g)).getD i (0, 0) = k))) = id := by
    funext k; rfl
  rw [this, List.map_id]
  exact nodup_dedupF (pts.map (gridKey g))

theorem grid_mem_iff (pts : List Q3) (g : ℚ) (e : (ℤ × ℤ) × List ℕ) :
    e ∈ create_spatial_grid pts g ↔
      e.1 ∈ dedupF (pts.map (gridKey g)) ∧
        e.2 = (List.range pts.length).filter
          (fun i => (pts.map (gridKey g)).getD i (0, 0) = e.1) := by
  unfold create_spatial_grid
  constructor
  · intro h
    rcases List.mem_map.mp h with ⟨k, hk, he⟩
    cases he
    exact ⟨hk, rfl⟩
  · rintro ⟨hk, he⟩
    refine List.mem_map.mpr ⟨e.1, hk, ?_⟩
    cases e
    simp only at he
    rw [he]

/-- Claim C8: for every point set and cell size `g > 0`, the spatial grid
assigns each point index to exactly one cell, keyed
`(⌊x/g⌋, ⌊y/g⌋)`; every index in a cell is a valid point index with that
cell's key; every present cell is nonempty (empty cells are omitted); and
cell keys are pairwise distinct (so distinct cells are disjoint). -/
theorem c8_spatial_grid_partition (pts : List Q3) (g : ℚ) (hg : 0 < g) :
    (∀ i, i < pts.length →
        ∃! e, e ∈ create_spatial_grid pts g ∧ i ∈ e.2) ∧
      (∀ e ∈ create_spatial_grid pts g, ∀ i ∈ e.2,
        i < pts.length ∧ e.1 = gridKey g (pts.getD i z3)) ∧
      (∀ e ∈ create_spatial_grid pts g, e.2 ≠ []) ∧
      ((create_spatial_grid pts g).map Prod.fst).Nodup := by
  have hmem := grid_mem_iff pts g
  refine ⟨?_, ?_, ?_, grid_fst_nodup pts g⟩
  · intro i hi
    set k := gridKey g (pts.getD i z3) with hk
    have hkmem : k ∈ dedupF (pts.map (gridKey g)) := by
      rw [mem_dedupF]
      have : pts.getD i z3 ∈ pts := by
        rw [List.getD_eq_getElem _ _ hi]; exact pts.getElem_mem hi
      exact List.mem_map_of_mem (gridKey g) this
    refine ⟨(k, (List.range pts.length).filter
        (fun j => (pts.map (gridKey g)).getD j (0, 0) = k)), ⟨?_, ?_⟩, ?_⟩
    · exact (hmem _).mpr ⟨hkmem, rfl⟩
    · exact (mem_cell_iff pts g k i).mpr ⟨hi, rfl⟩
    · rintro e ⟨he, hie⟩
      rcases (hmem e).mp he with ⟨hek, he2⟩
      have hik : gridKey g (pts.getD i z3) = e.1 := by
        have := (mem_cell_iff pts g e.1 i).mp (he2 ▸ hie)
        exact this.2
      have : e.1 = k := hik.symm
      cases e
      simp only at he2 hek this ⊢
      subst this
      rw [he2]
  · intro e he i hie
    rcases (hmem e).mp he with ⟨_, he2⟩
    have := (mem_cell_iff pts g e.1 i).mp (he2 ▸ hie)
    exact ⟨this.1, this.2.symm⟩
  · intro e he
    rcases (hmem e).mp he with ⟨hek, he2⟩
    rcases mem_dedupF.mp hek with hk
    rcases List.mem_map.mp hk with ⟨p, hp, hpk⟩
    rcases List.mem_iff_getElem.mp hp with ⟨i, hi, hip⟩
    intro hnil
    have : i ∈ e.2 := by
      rw [he2]
      refine (mem_cell_iff pts g e.1 i).mpr ⟨hi, ?_⟩
      rw [List.getD_eq_getElem _ _ hi, hip, hpk]
    rw [hnil] at this
    simp at this

/-- Witness for C8 at a concrete input: two points in distinct 100 m cells. -/
theorem c8_spatial_grid_partition_witness :
    (0 : ℚ) < 100 ∧
      (∀ i, i < ([((0 : ℚ), (0 : ℚ), (0 : ℚ)), (250, 50, 3)] : List Q3).length →
        ∃! e, e ∈ create_spatial_grid [((0 : ℚ), (0 : ℚ), (0 : ℚ)), (250, 50, 3)] 100 ∧
          i ∈ e.2) :=
  ⟨by norm_num,
    (c8_spatial_grid_partition [((0 : ℚ), (0 : ℚ), (0 : ℚ)), (250, 50, 3)] 100
      (by norm_num)).1⟩

/-! ### ClusterEngine: sklearn DBSCAN (`sklearn.cluster.DBSCAN(eps, min_samples)`)

The source delegates density clustering to `sklearn.cluster.DBSCAN` with
Euclidean distances.  The embedding implements the canonical DBSCAN
algorithm that sklearn implements: a point is a core point when its closed
`eps`-ball holds at least `min_samples` points (itself included); clusters
are grown from unvisited core points, in index order, by breadth-first
expansion through core neighbors, absorbing border points; unreachable
non-core points are labeled `-1` (noise).  Labels `-2` marks unvisited
points during the run and never survives to the output. -/

/-- Indices of the points within distance `eps` of point `i` (closed ball,
as in sklearn's `eps`-neighborhood). -/
def nbrs (pts : List Q3) (eps : ℚ) (i : ℕ) : List ℕ :=
  (List.range pts.length).filter
    (fun j => sqDist3 (pts.getD i z3) (pts.getD j z3) ≤ eps ^ 2)

/-- Core-point criterion: at least `minPts` neighbors, the point itself
included (sklearn `min_samples`). -/
def isCore (pts : List Q3) (eps : ℚ) (minPts : ℕ) (i : ℕ) : Bool :=
  minPts ≤ (nbrs pts eps i).length

/-- Pointwise label update. -/
def lset (L : ℕ → ℤ) (i : ℕ) (c : ℤ) : ℕ → ℤ := fun k => if k = i then c else L k

/-- Breadth-first cluster expansion of cluster `c`: dequeue a point; noise
becomes a border member; unvisited points join the cluster and, when they
are core points, enqueue their neighborhood.  Structural recursion on an
explicit fuel that is always sufficient for the queue to drain. -/
def expand (pts : List Q3) (eps : ℚ) (minPts : ℕ) (c : ℤ) :
    ℕ → (ℕ → ℤ) → List ℕ → (ℕ → ℤ)
  | 0, L, _ => L
  | _ + 1, L, [] => L
  | fuel + 1, L, q :: qs =>
    if L q = -1 then expand pts eps minPts c fuel (lset L q c) qs
    else if L q ≠ -2 then expand pts eps minPts c fuel L qs
    else if isCore pts eps minPts q then
      expand pts eps minPts c fuel (lset L q c) (qs ++ nbrs pts eps q)
    else expand pts eps minPts c fuel (lset L q c) qs

/-- Fuel bound for one cluster expansion: every point is enqueued at most
once per membership in a neighborhood list, so `n² + n + 1` steps drain
any queue arising in a run over `n` points. -/
def dbscanFuel (pts : List Q3) : ℕ := pts.length * pts.length + pts.length + 1

/-- Main DBSCAN loop: scan points in index order, start a new cluster at
each unvisited core point, mark unvisited non-core points as noise. -/
def dbscanGo (pts : List Q3) (eps : ℚ) (minPts : ℕ) :
    List ℕ → (ℕ → ℤ) → ℤ → (ℕ → ℤ)
  | [], L, _ => L
  | i :: rest, L, c =>
    if L i ≠ -2 then dbscanGo pts eps minPts rest L c
    else if isCore pts eps minPts i then
      dbscanGo pts eps minPts rest
        (expand pts eps minPts c (dbscanFuel pts) (lset L i c) (nbrs pts eps i))
        (c + 1)
    else dbscanGo pts eps minPts rest (lset L i (-1)) c

/-- The DBSCAN label vector: one label per point, `-1` for noise,
`0, 1, 2, …` for clusters (source: `DBSCAN(...).fit_predict(points)`). -/
def dbscanLabels (pts : List Q3) (eps : ℚ) (minPts : ℕ) : List ℤ :=
  (List.range pts.length).map
    (dbscanGo pts eps minPts (List.range pts.length) (fun _ => -2) 0)

/-! ### ClusterMerger (`merge_adjacent_clusters`, lines 142-169) -/

/-- Insert an element into an ascending list, keeping it sorted. -/
def insertAsc {α : Type} [LinearOrder α] (a : α) : List α → List α
  | [] => [a]
  | b :: t => if a ≤ b then a :: b :: t else b :: insertAsc a t

/-- Ascending insertion sort (used for `np.unique`'s sorted output and for
`np.percentile`'s sorted copy of the data). -/
def sortAsc {α : Type} [LinearOrder α] (l : List α) : List α :=
  l.foldr insertAsc []

/-- Distinct labels in ascending order (source: `np.unique(labels)`,
which sorts). -/
def sortedUniq (l : List ℤ) : List ℤ := sortAsc (dedupF l)

theorem length_insertAsc {α : Type} [LinearOrder α] (a : α) (l : List α) :
    (insertAsc a l).length = l.length + 1 := by
  induction l with
  | nil => rfl
  | cons b t ih =>
    unfold insertAsc
    split
    · rfl
    · simp [ih]

theorem length_sortAsc {α : Type} [LinearOrder α] (l : List α) :
    (sortAsc l).length = l.length := by
  induction l with
  | nil => rfl
  | cons b t ih =>
    unfold sortAsc at ih ⊢
    simp [List.foldr_cons, length_insertAsc, ih]

theorem mem_insertAsc {α : Type} [LinearOrder α] (a x : α) (l : List α) :
    x ∈ insertAsc a l ↔ x = a ∨ x ∈ l := by
  induction l with
  | nil => simp [insertAsc]
  | cons b t ih =>
    unfold insertAsc
    split
    · simp [List.mem_cons]
    · simp only [List.mem_cons, ih]
      tauto

theorem mem_sortAsc {α : Type} [LinearOrder α] (x : α) (l : List α) :
    x ∈ sortAsc l ↔ x ∈ l := by
  induction l with
  | nil => simp [sortAsc]
  | cons b t ih =>
    unfold sortAsc at ih ⊢
    simp only [List.foldr_cons, mem_insertAsc, List.mem_cons, ih]

/-- `merge_adjacent_clusters`: compute each cluster's centroid, run DBSCAN
on the centroids with radius `eps * 2` and `min_samples = 1`, and union the
clusters whose centroids received the same label (source lines 142-169;
lists of fewer than two clusters are returned unchanged). -/
def merge_adjacent_clusters (clusters : List (List Q3)) (eps : ℚ) :
    List (List Q3) :=
  if clusters.length ≤ 1 then clusters
  else
    let centers := clusters.map centroid
    let labels := dbscanLabels centers (eps * 2) 1
    (sortedUniq labels).map (fun lab =>
      ((List.range clusters.length).filter
          (fun i => labels.getD i (-2) = lab)).foldr
        (fun i acc => clusters.getD i [] ++ acc) [])

/-- Step relation used by DBSCAN on indices: both indices are in range and
the two points are within `eps` of each other. -/
def ptAdj (pts : List Q3) (eps : ℚ) (i j : ℕ) : Prop :=
  i < pts.length ∧ j < pts.length ∧
    sqDist3 (pts.getD i z3) (pts.getD j z3) ≤ eps ^ 2

theorem sqDist3_symm (p q : Q3) : sqDist3 p q = sqDist3 q p := by
  unfold sqDist3; ring

theorem sqDist3_self (p : Q3) : sqDist3 p p = 0 := by
  unfold sqDist3; ring

theorem ptAdj_symm {pts : List Q3} {eps : ℚ} {i j : ℕ}
    (h : ptAdj pts eps i j) : ptAdj pts eps j i :=
  ⟨h.2.1, h.1, sqDist3_symm _ _ ▸ h.2.2⟩

theorem conn_symm {pts : List Q3} {eps : ℚ} {i j : ℕ}
    (h : Relation.ReflTransGen (ptAdj pts eps) i j) :
    Relation.ReflTransGen (ptAdj pts eps) j i := by
  induction h with
  | refl => exact Relation.ReflTransGen.refl
  | tail _ hstep ih =>
    exact Relation.ReflTransGen.trans
      (Relation.ReflTransGen.single (ptAdj_symm hstep)) ih

theorem mem_nbrs {pts : List Q3} {eps : ℚ} {i j : ℕ} (hj : j ∈ nbrs pts eps i) :
    j < pts.length ∧ sqDist3 (pts.getD i z3) (pts.getD j z3) ≤ eps ^ 2 := by
  rcases List.mem_filter.mp hj with ⟨hr, hd⟩
  exact ⟨List.mem_range.mp hr, of_decide_eq_true hd⟩

theorem adj_of_mem_nbrs {pts : List Q3} {eps : ℚ} {i j : ℕ}
    (hi : i < pts.length) (hj : j ∈ nbrs pts eps i) : ptAdj pts eps i j :=
  ⟨hi, (mem_nbrs hj).1, (mem_nbrs hj).2⟩

/-- self-membership in the neighborhood, so `min_samples = 1` makes every
in-range point a core point. -/
theorem self_mem_nbrs {pts : List Q3} {eps : ℚ} {i : ℕ} (hi : i < pts.length) :
    i ∈ nbrs pts eps i := by
  refine List.mem_filter.mpr ⟨List.mem_range.mpr hi, ?_⟩
  rw [sqDist3_self]
  exact decide_eq_true (sq_nonneg eps)

theorem isCore_one {pts : List Q3} {eps : ℚ} {i : ℕ} (hi : i < pts.length) :
    isCore pts eps 1 i = true := by
  unfold isCore
  have : 0 < (nbrs pts eps i).length := List.length_pos.mpr
    (List.ne_nil_of_mem (self_mem_nbrs hi))
  exact decide_eq_true this

theorem lset_cases (L : ℕ → ℤ) (q k : ℕ) (c : ℤ) :
    lset L q c k = L k ∨ lset L q c k = c := by
  unfold lset
  split
  · right; rfl
  · left; rfl

theorem lset_ne (L : ℕ → ℤ) {q k : ℕ} (c : ℤ) (h : k ≠ q) :
    lset L q c k = L k := by
  unfold lset
  exact if_neg h

theorem lset_self (L : ℕ → ℤ) (q : ℕ) (c : ℤ) : lset L q c q = c := by
  unfold lset
  exact if_pos rfl

theorem expand_cons (pts : List Q3) (eps : ℚ) (minPts : ℕ) (c : ℤ)
    (n : ℕ) (L : ℕ → ℤ) (q : ℕ) (qs : List ℕ) :
    expand pts eps minPts c (n + 1) L (q :: qs) =
      if L q = -1 then expand pts eps minPts c n (lset L q c) qs
      else if L q ≠ -2 then expand pts eps minPts c n L qs
      else if isCore pts eps minPts q then
        expand pts eps minPts c n (lset L q c) (qs ++ nbrs pts eps q)
      else expand pts eps minPts c n (lset L q c) qs := rfl

theorem expand_values (pts : List Q3) (eps : ℚ) (minPts : ℕ) (c : ℤ) :
    ∀ (fuel : ℕ) (L : ℕ → ℤ) (Q : List ℕ) (k : ℕ),
      expand pts eps minPts c fuel L Q k = L k ∨
        expand pts eps minPts c fuel L Q k = c := by
  intro fuel
  induction fuel with
  | zero => intro L Q k; left; rfl
  | succ n ih =>
    intro L Q k
    cases Q with
    | nil => left; rfl
    | cons q qs =>
      rw [expand_cons]
      by_cases h1 : L q = -1
      · rw [if_pos h1]
        rcases ih (lset L q c) qs k with h | h
        · rcases lset_cases L q k c with h' | h'
          · left; rw [h, h']
          · right; rw [h, h']
        · right; exact h
      · rw [if_neg h1]
        by_cases h2 : L q = -2
        · rw [if_neg (by simpa using h2)]
          by_cases h3 : isCore pts eps minPts q
          · rw [if_pos h3]
            rcases ih (lset L q c) (qs ++ nbrs pts eps q) k with h | h
            · rcases lset_cases L q k c with h' | h'
              · left; rw [h, h']
              · right; rw [h, h']
            · right; exact h
          · rw [if_neg h3]
            rcases ih (lset L q c) qs k with h | h
            · rcases lset_cases L q k c with h' | h'
              · left; rw [h, h']
              · right; rw [h, h']
            · right; exact h
        · rw [if_pos (by simpa using h2)]
          exact ih L qs k

theorem expand_freeze (pts : List Q3) (eps : ℚ) (minPts : ℕ) (c : ℤ) :
    ∀ (fuel : ℕ) (L : ℕ → ℤ) (Q : List ℕ) (k : ℕ), 0 ≤ L k →
      expand pts eps minPts c fuel L Q k = L k := by
  intro fuel
  induction fuel with
  | zero => intro L Q k _; rfl
  | succ n ih =>
    intro L Q k hk
    cases Q with
    | nil => rfl
    | cons q qs =>
      have hkq : k ≠ q → lset L q c k = L k := fun h => lset_ne L c h
      rw [expand_cons]
      by_cases h1 : L q = -1
      · rw [if_pos h1]
        have hne : k ≠ q := fun h => by rw [h, h1] at hk; omega
        rw [ih (lset L q c) qs k (by rw [hkq hne]; exact hk), hkq hne]
      · rw [if_neg h1]
        by_cases h2 : L q = -2
        · rw [if_neg (by simpa using h2)]
          have hne : k ≠ q := fun h => by rw [h, h2] at hk; omega
          by_cases h3 : isCore pts eps minPts q
          · rw [if_pos h3]
            rw [ih (lset L q c) (qs ++ nbrs pts eps q) k
              (by rw [hkq hne]; exact hk), hkq hne]
          · rw [if_neg h3]
            rw [ih (lset L q c) qs k (by rw [hkq hne]; exact hk), hkq hne]
        · rw [if_pos (by simpa using h2)]
          exact ih L qs k hk

/-- Soundness invariant for the label function: any two points carrying the
same nonnegative (cluster) label are linked by a chain of `eps`-close
points. -/
def GoodLabels (pts : List Q3) (eps : ℚ) (L : ℕ → ℤ) : Prop :=
  ∀ k₁ k₂, 0 ≤ L k₁ → L k₁ = L k₂ →
    Relation.ReflTransGen (ptAdj pts eps) k₁ k₂

theorem expand_inv (pts : List Q3) (eps : ℚ) (minPts : ℕ) (c : ℤ)
    (hc : 0 ≤ c) :
    ∀ (fuel : ℕ) (L : ℕ → ℤ) (Q : List ℕ),
      (∀ k₁ k₂, L k₁ = c → L k₂ = c →
        Relation.ReflTransGen (ptAdj pts eps) k₁ k₂) →
      (∀ q ∈ Q, q < pts.length ∧ ∃ k, L k = c ∧
        Relation.ReflTransGen (ptAdj pts eps) k q) →
      (∀ k₁ k₂, 0 ≤ L k₁ → L k₁ ≠ c → L k₁ = L k₂ →
        Relation.ReflTransGen (ptAdj pts eps) k₁ k₂) →
      GoodLabels pts eps (expand pts eps minPts c fuel L Q) := by
  have base : ∀ (L : ℕ → ℤ),
      (∀ k₁ k₂, L k₁ = c → L k₂ = c →
        Relation.ReflTransGen (ptAdj pts eps) k₁ k₂) →
      (∀ k₁ k₂, 0 ≤ L k₁ → L k₁ ≠ c → L k₁ = L k₂ →
        Relation.ReflTransGen (ptAdj pts eps) k₁ k₂) →
      GoodLabels pts eps L := by
    intro L e1 e3 k₁ k₂ hge heq
    by_cases hk : L k₁ = c
    · exact e1 k₁ k₂ hk (heq ▸ hk)
    · exact e3 k₁ k₂ hge hk heq
  intro fuel
  induction fuel with
  | zero => intro L Q e1 _ e3; exact base L e1 e3
  | succ n ih =>
    intro L Q e1 e2 e3
    cases Q with
    | nil => exact base L e1 e3
    | cons q qs =>
      -- update invariants for the labeling `lset L q c` when `L q ≠ c`
      have upd : L q ≠ c →
          ((∀ k₁ k₂, lset L q c k₁ = c → lset L q c k₂ = c →
            Relation.ReflTransGen (ptAdj pts eps) k₁ k₂) ∧
          (∀ p ∈ qs, p < pts.length ∧ ∃ k, lset L q c k = c ∧
            Relation.ReflTransGen (ptAdj pts eps) k p) ∧
          (∀ k₁ k₂, 0 ≤ lset L q c k₁ → lset L q c k₁ ≠ c →
            lset L q c k₁ = lset L q c k₂ →
            Relation.ReflTransGen (ptAdj pts eps) k₁ k₂)) := by
        intro hqc
        have toQ : ∀ k, lset L q c k = c →
            Relation.ReflTransGen (ptAdj pts eps) q k := by
          intro k hk
          by_cases hkq : k = q
          · rw [hkq]
          · rw [lset_ne L c hkq] at hk
            rcases e2 q (List.mem_cons_self q qs) with ⟨_, k₀, hk₀, hconn⟩
            exact conn_symm (Relation.ReflTransGen.trans
              (e1 k k₀ hk hk₀) hconn)
        refine ⟨?_, ?_, ?_⟩
        · intro k₁ k₂ h₁ h₂
          exact Relation.ReflTransGen.trans (conn_symm (toQ k₁ h₁)) (toQ k₂ h₂)
        · intro p hp
          rcases e2 p (List.mem_cons_of_mem q hp) with ⟨hpn, k₀, hk₀, hconn⟩
          have hk₀q : k₀ ≠ q := fun h => hqc (h ▸ hk₀)
          exact ⟨hpn, k₀, by rw [lset_ne L c hk₀q]; exact hk₀, hconn⟩
        · intro k₁ k₂ hge hne heq
          have hk₁q : k₁ ≠ q := fun h => hne (h ▸ lset_self L q c)
          have hk₂q : k₂ ≠ q := by
            intro h
            rw [h, lset_self L q c] at heq
            exact hne heq
          rw [lset_ne L c hk₁q] at hge hne heq
          rw [lset_ne L c hk₂q] at heq
          exact e3 k₁ k₂ hge hne heq
      rw [expand_cons]
      by_cases h1 : L q = -1
      · rw [if_pos h1]
        have hqc : L q ≠ c := by rw [h1]; omega
        rcases upd hqc with ⟨e1', e2', e3'⟩
        exact ih (lset L q c) qs e1' e2' e3'
      · rw [if_neg h1]
        by_cases h2 : L q = -2
        · rw [if_neg (by simpa using h2)]
          have hqc : L q ≠ c := by rw [h2]; omega
          rcases upd hqc with ⟨e1', e2', e3'⟩
          by_cases h3 : isCore pts eps minPts q
          · rw [if_pos h3]
            refine ih (lset L q c) (qs ++ nbrs pts eps q) e1' ?_ e3'
            intro p hp
            rcases List.mem_append.mp hp with hp | hp
            · exact e2' p hp
            · have hqn : q < pts.length := (e2 q (List.mem_cons_self q qs)).1
              exact ⟨(mem_nbrs hp).1, q, lset_self L q c,
                Relation.ReflTransGen.single (adj_of_mem_nbrs hqn hp)⟩
          · rw [if_neg h3]
            exact ih (lset L q c) qs e1' e2' e3'
        · rw [if_pos (by simpa using h2)]
          refine ih L qs e1 ?_ e3
          intro p hp
          exact e2 p (List.mem_cons_of_mem q hp)

theorem dbscanGo_cons (pts : List Q3) (eps : ℚ) (minPts : ℕ) (i : ℕ)
    (rest : List ℕ) (L : ℕ → ℤ) (c : ℤ) :
    dbscanGo pts eps minPts (i :: rest) L c =
      if L i ≠ -2 then dbscanGo pts eps minPts rest L c
      else if isCore pts eps minPts i then
        dbscanGo pts eps minPts rest
          (expand pts eps minPts c (dbscanFuel pts) (lset L i c)
            (nbrs pts eps i)) (c + 1)
      else dbscanGo pts eps minPts rest (lset L i (-1)) c := rfl

theorem dbscanGo_freeze (pts : List Q3) (eps : ℚ) (minPts : ℕ) :
    ∀ (todo : List ℕ) (L : ℕ → ℤ) (c : ℤ) (k : ℕ), 0 ≤ L k →
      dbscanGo pts eps minPts todo L c k = L k := by
  intro todo
  induction todo with
  | nil => intro L c k _; rfl
  | cons i rest ih =>
    intro L c k hk
    rw [dbscanGo_cons]
    by_cases h1 : L i = -2
    · rw [if_neg (by simpa using h1)]
      have hki : k ≠ i := fun h => by rw [h, h1] at hk; omega
      by_cases h2 : isCore pts eps minPts i
      · rw [if_pos h2]
        have h₀ : lset L i c k = L k := lset_ne L c hki
        have h₁ : expand pts eps minPts c (dbscanFuel pts) (lset L i c)
            (nbrs pts eps i) k = L k := by
          rw [expand_freeze pts eps minPts c _ _ _ k (by rw [h₀]; exact hk), h₀]
        rw [ih _ _ k (by rw [h₁]; exact hk), h₁]
      · rw [if_neg h2]
        have h₀ : lset L i (-1) k = L k := lset_ne L (-1) hki
        rw [ih _ _ k (by rw [h₀]; exact hk), h₀]
    · rw [if_pos (by simpa using h1)]
      exact ih L c k hk

theorem dbscanGo_good (pts : List Q3) (eps : ℚ) (minPts : ℕ) :
    ∀ (todo : List ℕ) (L : ℕ → ℤ) (c : ℤ),
      (∀ j ∈ todo, j < pts.length) → 0 ≤ c → (∀ k, L k < c) →
      GoodLabels pts eps L →
      GoodLabels pts eps (dbscanGo pts eps minPts todo L c) := by
  intro todo
  induction todo with
  | nil => intro L c _ _ _ hgood; exact hgood
  | cons i rest ih =>
    intro L c htodo hc hlt hgood
    have hrest : ∀ j ∈ rest, j < pts.length :=
      fun j hj => htodo j (List.mem_cons_of_mem i hj)
    have hi : i < pts.length := htodo i (List.mem_cons_self i rest)
    rw [dbscanGo_cons]
    by_cases h1 : L i = -2
    · rw [if_neg (by simpa using h1)]
      by_cases h2 : isCore pts eps minPts i
      · rw [if_pos h2]
        have hbound : ∀ k, expand pts eps minPts c (dbscanFuel pts)
            (lset L i c) (nbrs pts eps i) k < c + 1 := by
          intro k
          rcases expand_values pts eps minPts c (dbscanFuel pts)
              (lset L i c) (nbrs pts eps i) k with h | h
          · rw [h]
            rcases lset_cases L i k c with h' | h'
            · rw [h']; exact lt_trans (hlt k) (by omega)
            · rw [h']; omega
          · rw [h]; omega
        have hgood₁ : GoodLabels pts eps (expand pts eps minPts c
            (dbscanFuel pts) (lset L i c) (nbrs pts eps i)) := by
          apply expand_inv pts eps minPts c hc
          · intro k₁ k₂ hk₁ hk₂
            have e₁ : k₁ = i := by
              by_contra hne
              rw [lset_ne L c hne] at hk₁
              exact absurd hk₁ (ne_of_lt (hlt k₁))
            have e₂ : k₂ = i := by
              by_contra hne
              rw [lset_ne L c hne] at hk₂
              exact absurd hk₂ (ne_of_lt (hlt k₂))
            rw [e₁, e₂]
          · intro q hq
            exact ⟨(mem_nbrs hq).1, i, lset_self L i c,
              Relation.ReflTransGen.single (adj_of_mem_nbrs hi hq)⟩
          · intro k₁ k₂ hge hne heq
            have e₁ : k₁ ≠ i := fun h => hne (h ▸ lset_self L i c)
            have e₂ : k₂ ≠ i := by
              intro h
              rw [h, lset_self L i c] at heq
              exact hne heq
            rw [lset_ne L c e₁] at hge heq
            rw [lset_ne L c e₂] at heq
            exact hgood k₁ k₂ hge heq
        exact ih _ (c + 1) hrest (by omega) hbound hgood₁
      · rw [if_neg h2]
        refine ih _ c hrest hc ?_ ?_
        · intro k
          rcases lset_cases L i k (-1) with h | h
          · rw [h]; exact hlt k
          · rw [h]; omega
        · intro k₁ k₂ hge heq
          have e₁ : k₁ ≠ i := by
            intro h
            rw [h, lset_self L i (-1)] at hge
            omega
          have e₂ : k₂ ≠ i := by
            intro h
            rw [lset_ne L (-1) e₁, h, lset_self L i (-1)] at heq
            rw [lset_ne L (-1) e₁] at hge
            omega
          rw [lset_ne L (-1) e₁] at hge heq
          rw [lset_ne L (-1) e₂] at heq
          exact hgood k₁ k₂ hge heq
    · rw [if_pos (by simpa using h1)]
      exact ih L c hrest hc hlt hgood

/-- The final DBSCAN label function for a point list. -/
def dbscanFinal (pts : List Q3) (eps : ℚ) (minPts : ℕ) : ℕ → ℤ :=
  dbscanGo pts eps minPts (List.range pts.length) (fun _ => -2) 0

theorem dbscanFinal_good (pts : List Q3) (eps : ℚ) (minPts : ℕ) :
    GoodLabels pts eps (dbscanFinal pts eps minPts) := by
  apply dbscanGo_good
  · intro j hj; exact List.mem_range.mp hj
  · omega
  · intro k; omega
  · intro k₁ k₂ h _
    exfalso
    simp only at h
    omega

theorem dbscanGo_all_labeled (pts : List Q3) (eps : ℚ) :
    ∀ (todo : List ℕ) (L : ℕ → ℤ) (c : ℤ),
      (∀ j ∈ todo, j < pts.length) →
      (∀ k, L k = -2 ∨ 0 ≤ L k) → 0 ≤ c →
      ∀ i ∈ todo, 0 ≤ dbscanGo pts eps 1 todo L c i := by
  intro todo
  induction todo with
  | nil => intro L c _ _ _ i hi; simp at hi
  | cons i₀ rest ih =>
    intro L c htodo hV hc i hi
    have hrest : ∀ j ∈ rest, j < pts.length :=
      fun j hj => htodo j (List.mem_cons_of_mem i₀ hj)
    have hi₀ : i₀ < pts.length := htodo i₀ (List.mem_cons_self i₀ rest)
    rw [dbscanGo_cons]
    by_cases h1 : L i₀ = -2
    · rw [if_neg (by simpa using h1), if_pos (isCore_one hi₀)]
      have hV₁ : ∀ k, expand pts eps 1 c (dbscanFuel pts) (lset L i₀ c)
          (nbrs pts eps i₀) k = -2 ∨
          0 ≤ expand pts eps 1 c (dbscanFuel pts) (lset L i₀ c)
          (nbrs pts eps i₀) k := by
        intro k
        rcases expand_values pts eps 1 c (dbscanFuel pts)
            (lset L i₀ c) (nbrs pts eps i₀) k with h | h
        · rw [h]
          rcases lset_cases L i₀ k c with h' | h'
          · rw [h']; exact hV k
          · rw [h']; right; exact hc
        · rw [h]; right; exact hc
      rcases List.mem_cons.mp hi with rfl | hi'
      · have h₀ : lset L i c i = c := lset_self L i c
        have h₁ : expand pts eps 1 c (dbscanFuel pts) (lset L i c)
            (nbrs pts eps i) i = c := by
          rw [expand_freeze pts eps 1 c _ _ _ i (by rw [h₀]; exact hc), h₀]
        rw [dbscanGo_freeze pts eps 1 rest _ (c + 1) i (by rw [h₁]; exact hc),
          h₁]
        exact hc
      · exact ih _ (c + 1) hrest hV₁ (by omega) i hi'
    · rw [if_pos (by simpa using h1)]
      have hL : 0 ≤ L i₀ := by rcases hV i₀ with h | h; exact absurd h h1; exact h
      rcases List.mem_cons.mp hi with rfl | hi'
      · rw [dbscanGo_freeze pts eps 1 rest L c i hL]
        exact hL
      · exact ih L c hrest hV hc i hi'

theorem dbscanFinal_nonneg (pts : List Q3) (eps : ℚ) {i : ℕ}
    (hi : i < pts.length) : 0 ≤ dbscanFinal pts eps 1 i := by
  apply dbscanGo_all_labeled pts eps (List.range pts.length) _ 0
  · intro j hj; exact List.mem_range.mp hj
  · intro k; left; rfl
  · omega
  · exact List.mem_range.mpr hi

theorem dbscanLabels_length (pts : List Q3) (eps : ℚ) (m : ℕ) :
    (dbscanLabels pts eps m).length = pts.length := by
  unfold dbscanLabels
  simp

theorem dbscanLabels_getD (pts : List Q3) (eps : ℚ) (m : ℕ) {i : ℕ}
    (hi : i < pts.length) (d : ℤ) :
    (dbscanLabels pts eps m).getD i d = dbscanFinal pts eps m i := by
  unfold dbscanLabels dbscanFinal
  rw [getD_map_eq _ _ i (by simpa using hi) d 0]
  congr 1
  rw [List.getD_eq_getElem _ _ (by simpa using hi)]
  simp

/-- Chain step between two clusters: both indices are valid and their
centroids are within `2·eps` of each other. -/
def centroidAdj (cs : List (List Q3)) (eps : ℚ) (i j : ℕ) : Prop :=
  i < cs.length ∧ j < cs.length ∧
    sqDist3 (centroid (cs.getD i [])) (centroid (cs.getD j []))
      ≤ (eps * 2) ^ 2

theorem ptAdj_centers {cs : List (List Q3)} {eps : ℚ} {i j : ℕ}
    (h : ptAdj (cs.map centroid) (eps * 2) i j) : centroidAdj cs eps i j := by
  rcases h with ⟨hi, hj, hd⟩
  rw [List.length_map] at hi hj
  refine ⟨hi, hj, ?_⟩
  rw [getD_map_eq centroid cs i hi z3 [], getD_map_eq centroid cs j hj z3 []]
    at hd
  exact hd

/-- Claim C2 (amended): the merge step outputs at most as many buildings as
there were input clusters, and it places two clusters into the same merged
building only when their centroids are connected by a chain of cluster
centroids in which each consecutive pair is at most `2·eps` apart.  (Two
clusters `i`, `j` land in the same output building exactly when their
centroids receive equal DBSCAN labels in the merge pass, which is how the
hypothesis below expresses "same merged building".) -/
theorem c2_merge_bounded (cs : List (List Q3)) (eps : ℚ) (heps : 0 < eps) :
    (merge_adjacent_clusters cs eps).length ≤ cs.length ∧
      ∀ i j, i < cs.length → j < cs.length →
        (dbscanLabels (cs.map centroid) (eps * 2) 1).getD i (-2) =
          (dbscanLabels (cs.map centroid) (eps * 2) 1).getD j (-2) →
        Relation.ReflTransGen (centroidAdj cs eps) i j := by
  constructor
  · unfold merge_adjacent_clusters
    by_cases h : cs.length ≤ 1
    · rw [if_pos h]
    · rw [if_neg h]
      simp only [List.length_map]
      calc (sortedUniq (dbscanLabels (cs.map centroid) (eps * 2) 1)).length
          = (dedupF (dbscanLabels (cs.map centroid) (eps * 2) 1)).length := by
            unfold sortedUniq
            exact length_sortAsc _
        _ ≤ (dbscanLabels (cs.map centroid) (eps * 2) 1).length :=
            (dedupF_sublist _).length_le
        _ = cs.length := by rw [dbscanLabels_length, List.length_map]
  · intro i j hi hj heq
    have hi' : i < (cs.map centroid).length := by simpa using hi
    have hj' : j < (cs.map centroid).length := by simpa using hj
    rw [dbscanLabels_getD _ _ _ hi', dbscanLabels_getD _ _ _ hj'] at heq
    have hconn : Relation.ReflTransGen (ptAdj (cs.map centroid) (eps * 2)) i j :=
      dbscanFinal_good (cs.map centroid) (eps * 2) 1 i j
        (dbscanFinal_nonneg (cs.map centroid) (eps * 2) hi') heq
    exact Relation.ReflTransGen.mono (fun a b h => ptAdj_centers h) hconn

/-- Witness for C2 (amended) at a concrete input: two clusters whose
centroids are 4 m apart with `eps = 5` end in the same building and are
chain-connected. -/
theorem c2_merge_bounded_witness :
    Relation.ReflTransGen
      (centroidAdj [[((0 : ℚ), 0, 0)], [(4, 0, 0)]] 5) 0 1 :=
  (c2_merge_bounded [[((0 : ℚ), 0, 0)], [(4, 0, 0)]] 5 (by norm_num)).2 0 1
    (by decide) (by decide) (by with_unfolding_all decide)

/-- Counterexample for C2 as stated: three chained clusters with centroids
at x = 0, 9, 18 and `eps = 5` are merged into a single building although
the first and last centroids are 18 m apart, farther than `2·eps = 10`. -/
theorem c2_counterexample :
    (merge_adjacent_clusters
        [[((0 : ℚ), 0, 0)], [(9, 0, 0)], [(18, 0, 0)]] 5).length = 1 ∧
      ((0 : ℚ), 0, 0) ∈ (merge_adjacent_clusters
        [[((0 : ℚ), 0, 0)], [(9, 0, 0)], [(18, 0, 0)]] 5).getD 0 [] ∧
      ((18 : ℚ), 0, 0) ∈ (merge_adjacent_clusters
        [[((0 : ℚ), 0, 0)], [(9, 0, 0)], [(18, 0, 0)]] 5).getD 0 [] ∧
      ((5 : ℚ) * 2) ^ 2 <
        sqDist3 (centroid [((0 : ℚ), 0, 0)]) (centroid [((18 : ℚ), 0, 0)]) := by
  with_unfolding_all decide

/-! ### Downsampler (`downsample_points`, lines 171-198)

The source computes a voxel size from the bounding-box diagonal and the
cube root of the target size (`voxel_size = diagonal / np.cbrt(target_size)`)
then delegates to `o3d.geometry.PointCloud.voxel_down_sample` and maps the
reduced points back with `scipy.spatial.cKDTree.query`.  Both calls are
external library capabilities. -/

theorem foldl_min_le (l : List ℚ) (a : ℚ) :
    l.foldl min a ≤ a ∧ ∀ x ∈ l, l.foldl min a ≤ x := by
  induction l generalizing a with
  | nil => exact ⟨le_refl a, by intro x hx; simp at hx⟩
  | cons b t ih =>
    rcases ih (min a b) with ⟨h1, h2⟩
    refine ⟨le_trans h1 (min_le_left a b), ?_⟩
    intro x hx
    rcases List.mem_cons.mp hx with rfl | hx
    · exact le_trans h1 (min_le_right a x)
    · exact h2 x hx

theorem foldl_min_mem (l : List ℚ) (a : ℚ) :
    l.foldl min a = a ∨ l.foldl min a ∈ l := by
  induction l generalizing a with
  | nil => left; rfl
  | cons b t ih =>
    rcases ih (min a b) with h | h
    · rcases min_choice a b with hm | hm
      · left; rw [List.foldl_cons, h, hm]
      · right; rw [List.foldl_cons, h, hm]; exact List.mem_cons_self b t
    · right; exact List.mem_cons_of_mem b h

theorem listMin_le {l : List ℚ} {x : ℚ} (hx : x ∈ l) : listMin l ≤ x := by
  cases l with
  | nil => simp at hx
  | cons a t =>
    rcases List.mem_cons.mp hx with rfl | hx
    · exact (foldl_min_le t x).1
    · exact (foldl_min_le t a).2 x hx

theorem listMin_mem {l : List ℚ} (h : l ≠ []) : listMin l ∈ l := by
  cases l with
  | nil => exact absurd rfl h
  | cons a t =>
    rcases foldl_min_mem t a with h' | h'
    · rw [listMin, h']; exact List.mem_cons_self a t
    · exact List.mem_cons_of_mem a h'

theorem foldl_max_le (l : List ℚ) (a : ℚ) :
    a ≤ l.foldl max a ∧ ∀ x ∈ l, x ≤ l.foldl max a := by
  induction l generalizing a with
  | nil => exact ⟨le_refl a, by intro x hx; simp at hx⟩
  | cons b t ih =>
    rcases ih (max a b) with ⟨h1, h2⟩
    refine ⟨le_trans (le_max_left a b) h1, ?_⟩
    intro x hx
    rcases List.mem_cons.mp hx with rfl | hx
    · exact le_trans (le_max_right a x) h1
    · exact h2 x hx

theorem foldl_max_mem (l : List ℚ) (a : ℚ) :
    l.foldl max a = a ∨ l.foldl max a ∈ l := by
  induction l generalizing a with
  | nil => left; rfl
  | cons b t ih =>
    rcases ih (max a b) with h | h
    · rcases max_choice a b with hm | hm
      · left; rw [List.foldl_cons, h, hm]
      · right; rw [List.foldl_cons, h, hm]; exact List.mem_cons_self b t
    · right; exact List.mem_cons_of_mem b h

theorem le_listMax {l : List ℚ} {x : ℚ} (hx : x ∈ l) : x ≤ listMax l := by
  cases l with
  | nil => simp at hx
  | cons a t =>
    rcases List.mem_cons.mp hx with rfl | hx
    · exact (foldl_max_le t x).1
    · exact (foldl_max_le t a).2 x hx

theorem listMax_mem {l : List ℚ} (h : l ≠ []) : listMax l ∈ l := by
  cases l with
  | nil => exact absurd rfl h
  | cons a t =>
    rcases foldl_max_mem t a with h' | h'
    · rw [listMax, h']; exact List.mem_cons_self a t
    · exact List.mem_cons_of_mem a h'

/-- Bounding-box minimum corner (source: `bbox.get_min_bound()`). -/
def bboxMinOf (pts : List Q3) : Q3 :=
  (listMin (xsOf pts), listMin (ysOf pts), listMin (zsOf pts))

/-- Squared length of the bounding-box diagonal (source:
`np.linalg.norm(bbox.get_max_bound() - bbox.get_min_bound())`, squared). -/
def diagSq (pts : List Q3) : ℚ :=
  (listMax (xsOf pts) - listMin (xsOf pts)) ^ 2 +
    (listMax (ysOf pts) - listMin (ysOf pts)) ^ 2 +
    (listMax (zsOf pts) - listMin (zsOf pts)) ^ 2

/-- Modelled from the spec: voxel index of a point for an axis-aligned
voxelization of size `v` anchored at the bounding-box minimum corner `m`
(§4.2: "space is divided into voxels"). -/
def voxelKey (v : ℚ) (m p : Q3) : ℤ × ℤ × ℤ :=
  (⌊(p.1 - m.1) / v⌋, ⌊(p.2.1 - m.2.1) / v⌋, ⌊(p.2.2 - m.2.2) / v⌋)

/-- Modelled from the spec: `o3d.geometry.PointCloud.voxel_down_sample`
(external library call) — "one representative point is kept per occupied
voxel — the voxel centroid" (§4.2).  The voxel size is passed explicitly;
the source computes it as `diagonal / np.cbrt(target_size)`, an irrational
value that the theorems constrain through the hypothesis
`diagSq pts ^ 3 ≤ v ^ 6 * C ^ 2`, which states exactly
`v ≥ diagonal / C^(1/3)`. -/
def voxelCentroids (v : ℚ) (pts : List Q3) : List Q3 :=
  let m := bboxMinOf pts
  let keys := pts.map (voxelKey v m)
  (dedupF keys).map (fun k => centroid (pts.filter (fun p => voxelKey v m p = k)))

/-- Modelled from the spec: `scipy.spatial.cKDTree(points).query(q)`
(external library call) — index of the original point nearest to `q`
("an index mapping from each reduced point back to its nearest original
point", §4.2).  Ties keep the earlier index. -/
def nearestIdx (pts : List Q3) (q : Q3) : ℕ :=
  (List.range pts.length).foldl
    (fun best i =>
      if sqDist3 (pts.getD i z3) q < sqDist3 (pts.getD best z3) q then i
      else best) 0

/-- `downsample_points`: identity (with identity index mapping) when the
input is within the target size, otherwise voxel downsampling followed by
nearest-original-point index mapping (source lines 171-198). -/
def downsample_points (pts : List Q3) (target : ℕ) (v : ℚ) :
    List Q3 × List ℕ :=
  if pts.length ≤ target then (pts, List.range pts.length)
  else
    let ds := voxelCentroids v pts
    (ds, ds.map (nearestIdx pts))

theorem nearestIdx_lt {pts : List Q3} (h : 0 < pts.length) (q : Q3) :
    nearestIdx pts q < pts.length := by
  unfold nearestIdx
  have key : ∀ (l : List ℕ) (b : ℕ), b < pts.length → (∀ i ∈ l, i < pts.length) →
      l.foldl (fun best i =>
        if sqDist3 (pts.getD i z3) q < sqDist3 (pts.getD best z3) q then i
        else best) b < pts.length := by
    intro l
    induction l with
    | nil => intro b hb _; exact hb
    | cons i t ih =>
      intro b hb hl
      rw [List.foldl_cons]
      by_cases hc : sqDist3 (pts.getD i z3) q < sqDist3 (pts.getD b z3) q
      · rw [if_pos hc]
        exact ih i (hl i (List.mem_cons_self i t))
          (fun j hj => hl j (List.mem_cons_of_mem i hj))
      · rw [if_neg hc]
        exact ih b hb (fun j hj => hl j (List.mem_cons_of_mem i hj))
  exact key (List.range pts.length) 0 h (fun i hi => List.mem_range.mp hi)

theorem amgm_three (x y z : ℤ) (hx : 0 ≤ x) (hy : 0 ≤ y) (hz : 0 ≤ z) :
    27 * (x * y * z) ≤ (x + y + z) ^ 3 := by
  nlinarith [mul_nonneg (add_nonneg (add_nonneg hx hy) hz) (sq_nonneg (x - y)),
    mul_nonneg (add_nonneg (add_nonneg hx hy) hz) (sq_nonneg (y - z)),
    mul_nonneg (add_nonneg (add_nonneg hx hy) hz) (sq_nonneg (z - x)),
    mul_nonneg hx (sq_nonneg (y - z)), mul_nonneg hy (sq_nonneg (z - x)),
    mul_nonneg hz (sq_nonneg (x - y))]

theorem one_var_bound (c C : ℕ) (hC : 1 ≤ C) (h : (c ^ 2) ^ 3 ≤ C ^ 2) :
    c + 1 ≤ 2 * C := by
  rcases Nat.eq_zero_or_pos c with rfl | hc
  · omega
  · have h1 : (c ^ 3) ^ 2 ≤ C ^ 2 := by
      calc (c ^ 3) ^ 2 = (c ^ 2) ^ 3 := by ring
        _ ≤ C ^ 2 := h
    have h2 : c ^ 3 ≤ C := (Nat.pow_le_pow_iff_left two_ne_zero).mp h1
    have h3 : c ≤ c ^ 3 := by nlinarith
    omega

theorem two_var_bound (b c C : ℕ) (hC : 1 ≤ C)
    (h : (b ^ 2 + c ^ 2) ^ 3 ≤ C ^ 2) : (b + 1) * (c + 1) ≤ 2 * C := by
  rcases Nat.eq_zero_or_pos b with rfl | hb
  · simpa using one_var_bound c C hC (by simpa using h)
  rcases Nat.eq_zero_or_pos c with rfl | hc
  · have := one_var_bound b C hC (by simpa using h)
    simpa using this
  · have hs : b ^ 2 + c ^ 2 ≤ C := by
      have hCC : C ^ 2 ≤ C ^ 3 := Nat.pow_le_pow_right hC (by omega)
      have h1 : (b ^ 2 + c ^ 2) ^ 3 ≤ C ^ 3 := le_trans h hCC
      exact (Nat.pow_le_pow_iff_left three_ne_zero).mp h1
    have hbc : (b + 1) * (c + 1) ≤ 4 * (b * c) := by nlinarith
    have h2 : 2 * (b * c) ≤ b ^ 2 + c ^ 2 := by nlinarith [sq_nonneg ((b : ℤ) - c)]
    omega

theorem voxel_prod_bound (a b c C : ℕ) (hC : 1 ≤ C)
    (h : (a ^ 2 + b ^ 2 + c ^ 2) ^ 3 ≤ C ^ 2) :
    (a + 1) * ((b + 1) * (c + 1)) ≤ 2 * C := by
  rcases Nat.eq_zero_or_pos a with rfl | ha
  · have := two_var_bound b c C hC (by simpa using h)
    simpa [mul_assoc] using this
  rcases Nat.eq_zero_or_pos b with rfl | hb
  · have := two_var_bound a c C hC (by
      have : a ^ 2 + 0 ^ 2 + c ^ 2 = a ^ 2 + c ^ 2 := by ring
      rwa [this] at h)
    calc (a + 1) * ((0 + 1) * (c + 1)) = (a + 1) * (c + 1) := by ring
      _ ≤ 2 * C := this
  rcases Nat.eq_zero_or_pos c with rfl | hc
  · have := two_var_bound a b C hC (by
      have : a ^ 2 + b ^ 2 + 0 ^ 2 = a ^ 2 + b ^ 2 := by ring
      rwa [this] at h)
    calc (a + 1) * ((b + 1) * (0 + 1)) = (a + 1) * (b + 1) := by ring
      _ ≤ 2 * C := this
  · -- all three positive: AM-GM route
    have ham : 27 * ((a : ℤ) ^ 2 * (b : ℤ) ^ 2 * (c : ℤ) ^ 2) ≤
        ((a : ℤ) ^ 2 + (b : ℤ) ^ 2 + (c : ℤ) ^ 2) ^ 3 :=
      amgm_three _ _ _ (by positivity) (by positivity) (by positivity)
    have hsq : ((a + 1) * ((b + 1) * (c + 1))) ^ 2 ≤ (2 * C) ^ 2 := by
      zify
      zify at h
      have ha' : (1 : ℤ) ≤ (a : ℤ) := by exact_mod_cast ha
      have hb' : (1 : ℤ) ≤ (b : ℤ) := by exact_mod_cast hb
      have hc' : (1 : ℤ) ≤ (c : ℤ) := by exact_mod_cast hc
      have hC' : (1 : ℤ) ≤ (C : ℤ) := by exact_mod_cast hC
      have e1 : (a : ℤ) + 1 ≤ 2 * a := by omega
      have e2 : (b : ℤ) + 1 ≤ 2 * b := by omega
      have e3 : (c : ℤ) + 1 ≤ 2 * c := by omega
      have h23 : ((b : ℤ) + 1) * ((c : ℤ) + 1) ≤ (2 * b) * (2 * c) :=
        mul_le_mul e2 e3 (by omega) (by omega)
      have h8 : ((a : ℤ) + 1) * (((b : ℤ) + 1) * ((c : ℤ) + 1)) ≤
          2 * a * (2 * b * (2 * c)) :=
        mul_le_mul e1 h23 (by positivity) (by omega)
      have h8' : ((a : ℤ) + 1) * (((b : ℤ) + 1) * ((c : ℤ) + 1)) ≤
          8 * ((a : ℤ) * b * c) := by linarith [h8]
      have hP2 : (((a : ℤ) + 1) * (((b : ℤ) + 1) * ((c : ℤ) + 1))) ^ 2 ≤
          (8 * ((a : ℤ) * b * c)) ^ 2 :=
        pow_le_pow_left₀ (by positivity) h8' 2
      have h64 : (8 * ((a : ℤ) * b * c)) ^ 2 =
          64 * ((a : ℤ) ^ 2 * (b : ℤ) ^ 2 * (c : ℤ) ^ 2) := by ring
      have hchain : 27 * ((((a : ℤ) + 1) * (((b : ℤ) + 1) * ((c : ℤ) + 1))) ^ 2)
          ≤ 64 * ((a : ℤ) ^ 2 + (b : ℤ) ^ 2 + (c : ℤ) ^ 2) ^ 3 := by
        nlinarith [hP2, h64, ham]
      nlinarith [hchain, h, sq_nonneg ((a : ℤ) + 1)]
    exact (Nat.pow_le_pow_iff_left two_ne_zero).mp hsq

theorem voxelKeys_card_bound (pts : List Q3) (v : ℚ) (hv : 0 < v)
    (hne : pts ≠ []) :
    ((dedupF (pts.map (voxelKey v (bboxMinOf pts)))).length : ℕ) ≤
      ((⌊(listMax (xsOf pts) - listMin (xsOf pts)) / v⌋.toNat + 1) *
        ((⌊(listMax (ysOf pts) - listMin (ysOf pts)) / v⌋.toNat + 1) *
          (⌊(listMax (zsOf pts) - listMin (zsOf pts)) / v⌋.toNat + 1))) := by
  set m := bboxMinOf pts with hm
  set kx := ⌊(listMax (xsOf pts) - listMin (xsOf pts)) / v⌋ with hkx
  set ky := ⌊(listMax (ysOf pts) - listMin (ysOf pts)) / v⌋ with hky
  set kz := ⌊(listMax (zsOf pts) - listMin (zsOf pts)) / v⌋ with hkz
  set keys := pts.map (voxelKey v m) with hkeys
  -- coordinatewise bounds for the key of every point
  have bound : ∀ k ∈ keys, k.1 ∈ Finset.Icc 0 kx ∧
      k.2.1 ∈ Finset.Icc 0 ky ∧ k.2.2 ∈ Finset.Icc 0 kz := by
    intro k hk
    rcases List.mem_map.mp hk with ⟨p, hp, hpk⟩
    have hx1 : listMin (xsOf pts) ≤ p.1 := listMin_le (List.mem_map_of_mem _ hp)
    have hx2 : p.1 ≤ listMax (xsOf pts) := le_listMax (List.mem_map_of_mem _ hp)
    have hy1 : listMin (ysOf pts) ≤ p.2.1 := listMin_le (List.mem_map_of_mem _ hp)
    have hy2 : p.2.1 ≤ listMax (ysOf pts) := le_listMax (List.mem_map_of_mem _ hp)
    have hz1 : listMin (zsOf pts) ≤ p.2.2 := listMin_le (List.mem_map_of_mem _ hp)
    have hz2 : p.2.2 ≤ listMax (zsOf pts) := le_listMax (List.mem_map_of_mem _ hp)
    have coord : ∀ (x lo hi : ℚ), lo ≤ x → x ≤ hi →
        ⌊(x - lo) / v⌋ ∈ Finset.Icc 0 ⌊(hi - lo) / v⌋ := by
      intro x lo hi h1 h2
      rw [Finset.mem_Icc]
      constructor
      · exact Int.floor_nonneg.mpr (div_nonneg (by linarith) hv.le)
      · exact Int.floor_le_floor ((div_le_div_iff_of_pos_right hv).mpr (by linarith))
    rw [← hpk]
    exact ⟨coord p.1 m.1 (listMax (xsOf pts)) hx1 hx2,
      coord p.2.1 m.2.1 (listMax (ysOf pts)) hy1 hy2,
      coord p.2.2 m.2.2 (listMax (zsOf pts)) hz1 hz2⟩
  have hnodup : (dedupF keys).Nodup := nodup_dedupF keys
  have hcardeq : (dedupF keys).toFinset.card = (dedupF keys).length :=
    List.toFinset_card_of_nodup hnodup
  have hsub : (dedupF keys).toFinset ⊆
      Finset.Icc 0 kx ×ˢ (Finset.Icc 0 ky ×ˢ Finset.Icc 0 kz) := by
    intro k hk
    have hk' : k ∈ keys := mem_dedupF.mp (List.mem_toFinset.mp hk)
    rcases bound k hk' with ⟨h1, h2, h3⟩
    rw [Finset.mem_product, Finset.mem_product]
    exact ⟨h1, h2, h3⟩
  have hcard := Finset.card_le_card hsub
  rw [hcardeq] at hcard
  have hbox : (Finset.Icc 0 kx ×ˢ (Finset.Icc 0 ky ×ˢ Finset.Icc 0 kz)).card =
      (kx + 1).toNat * ((ky + 1).toNat * (kz + 1).toNat) := by
    rw [Finset.card_product, Finset.card_product, Int.card_Icc, Int.card_Icc,
      Int.card_Icc]
    norm_num
  rw [hbox] at hcard
  have hxs : xsOf pts ≠ [] := by
    unfold xsOf; intro h; rw [List.map_eq_nil_iff] at h; exact hne h
  have hys : ysOf pts ≠ [] := by
    unfold ysOf; intro h; rw [List.map_eq_nil_iff] at h; exact hne h
  have hzs : zsOf pts ≠ [] := by
    unfold zsOf; intro h; rw [List.map_eq_nil_iff] at h; exact hne h
  have hx0 : 0 ≤ kx := by
    rw [hkx]
    refine Int.floor_nonneg.mpr (div_nonneg ?_ hv.le)
    have := le_listMax (listMin_mem hxs)
    linarith
  have hy0 : 0 ≤ ky := by
    rw [hky]
    refine Int.floor_nonneg.mpr (div_nonneg ?_ hv.le)
    have := le_listMax (listMin_mem hys)
    linarith
  have hz0 : 0 ≤ kz := by
    rw [hkz]
    refine Int.floor_nonneg.mpr (div_nonneg ?_ hv.le)
    have := le_listMax (listMin_mem hzs)
    linarith
  have e1 : (kx + 1).toNat = kx.toNat + 1 := by omega
  have e2 : (ky + 1).toNat = ky.toNat + 1 := by omega
  have e3 : (kz + 1).toNat = kz.toNat + 1 := by omega
  rw [e1, e2, e3] at hcard
  exact hcard

/-- Claim C5: for every input point set and cardinality cap `C ≥ 1`, the
downsampler's output cardinality is at most the input cardinality and at
most `2·C`, and every reduced point is mapped to exactly one valid index
into the original point set.  The voxel size `v` is constrained to be at
least the source's `diagonal / C^(1/3)` via
`diagSq pts ^ 3 ≤ v ^ 6 * C ^ 2`. -/
theorem c5_downsample_bounds (pts : List Q3) (C : ℕ) (v : ℚ) (hC : 1 ≤ C)
    (hv : 0 < v) (hvox : diagSq pts ^ 3 ≤ v ^ 6 * (C : ℚ) ^ 2) :
    (downsample_points pts C v).1.length ≤ pts.length ∧
      (downsample_points pts C v).1.length ≤ 2 * C ∧
      (downsample_points pts C v).2.length =
        (downsample_points pts C v).1.length ∧
      ∀ i ∈ (downsample_points pts C v).2, i < pts.length := by
  unfold downsample_points
  by_cases hle : pts.length ≤ C
  · rw [if_pos hle]
    refine ⟨le_refl _, ?_, by simp, ?_⟩
    · change pts.length ≤ 2 * C
      omega
    · intro i hi
      exact List.mem_range.mp hi
  · rw [if_neg hle]
    push_neg at hle
    have hn : 0 < pts.length := by omega
    have hne : pts ≠ [] := by
      intro h; rw [h] at hn; simp at hn
    have hxs : xsOf pts ≠ [] := by
      unfold xsOf; intro h; rw [List.map_eq_nil_iff] at h; exact hne h
    have hys : ysOf pts ≠ [] := by
      unfold ysOf; intro h; rw [List.map_eq_nil_iff] at h; exact hne h
    have hzs : zsOf pts ≠ [] := by
      unfold zsOf; intro h; rw [List.map_eq_nil_iff] at h; exact hne h
    have hlen : (voxelCentroids v pts).length =
        (dedupF (pts.map (voxelKey v (bboxMinOf pts)))).length := by
      unfold voxelCentroids
      simp
    have hlen_le : (voxelCentroids v pts).length ≤ pts.length := by
      rw [hlen]
      exact le_trans (dedupF_sublist _).length_le (by simp)
    refine ⟨hlen_le, ?_, by simp, ?_⟩
    · -- the 2·C bound through the box-counting argument
      set a := ⌊(listMax (xsOf pts) - listMin (xsOf pts)) / v⌋.toNat with ha
      set b := ⌊(listMax (ysOf pts) - listMin (ysOf pts)) / v⌋.toNat with hb
      set c := ⌊(listMax (zsOf pts) - listMin (zsOf pts)) / v⌋.toNat with hc
      have hbox := voxelKeys_card_bound pts v hv hne
      rw [hlen]
      refine le_trans hbox ?_
      refine voxel_prod_bound a b c C hC ?_
      -- arithmetic: (a² + b² + c²)³ ≤ C² from the voxel-size hypothesis
      have exnn : 0 ≤ listMax (xsOf pts) - listMin (xsOf pts) := by
        have := le_listMax (listMin_mem hxs)
        linarith
      have eynn : 0 ≤ listMax (ysOf pts) - listMin (ysOf pts) := by
        have := le_listMax (listMin_mem hys)
        linarith
      have eznn : 0 ≤ listMax (zsOf pts) - listMin (zsOf pts) := by
        have := le_listMax (listMin_mem hzs)
        linarith
      have hmul : ∀ e : ℚ, 0 ≤ e → (⌊e / v⌋.toNat : ℚ) * v ≤ e := by
        intro e he
        have h1 : (⌊e / v⌋.toNat : ℚ) = ((⌊e / v⌋ : ℤ) : ℚ) := by
          have : 0 ≤ ⌊e / v⌋ := Int.floor_nonneg.mpr (div_nonneg he hv.le)
          exact_mod_cast congrArg (fun z : ℤ => (z : ℚ)) (Int.toNat_of_nonneg this)
        rw [h1]
        have h2 : ((⌊e / v⌋ : ℤ) : ℚ) ≤ e / v := Int.floor_le _
        calc ((⌊e / v⌋ : ℤ) : ℚ) * v ≤ e / v * v :=
              mul_le_mul_of_nonneg_right h2 hv.le
          _ = e := div_mul_cancel₀ e (ne_of_gt hv)
      have hax := hmul _ exnn
      have hby := hmul _ eynn
      have hcz := hmul _ eznn
      have hsum : ((a : ℚ) ^ 2 + (b : ℚ) ^ 2 + (c : ℚ) ^ 2) * v ^ 2 ≤
          diagSq pts := by
        have sq1 : ((a : ℚ) * v) ^ 2 ≤
            (listMax (xsOf pts) - listMin (xsOf pts)) ^ 2 := by
          apply pow_le_pow_left₀ (mul_nonneg (Nat.cast_nonneg a) hv.le) hax
        have sq2 : ((b : ℚ) * v) ^ 2 ≤
            (listMax (ysOf pts) - listMin (ysOf pts)) ^ 2 := by
          apply pow_le_pow_left₀ (mul_nonneg (Nat.cast_nonneg b) hv.le) hby
        have sq3 : ((c : ℚ) * v) ^ 2 ≤
            (listMax (zsOf pts) - listMin (zsOf pts)) ^ 2 := by
          apply pow_le_pow_left₀ (mul_nonneg (Nat.cast_nonneg c) hv.le) hcz
        unfold diagSq
        nlinarith [sq1, sq2, sq3]
      have hcube : (((a : ℚ) ^ 2 + (b : ℚ) ^ 2 + (c : ℚ) ^ 2) * v ^ 2) ^ 3 ≤
          v ^ 6 * (C : ℚ) ^ 2 := by
        refine le_trans ?_ hvox
        apply pow_le_pow_left₀ ?_ hsum
        positivity
      have hfinal : ((a : ℚ) ^ 2 + (b : ℚ) ^ 2 + (c : ℚ) ^ 2) ^ 3 ≤
          (C : ℚ) ^ 2 := by
        have hv6 : (0 : ℚ) < v ^ 6 := by positivity
        have expand : (((a : ℚ) ^ 2 + (b : ℚ) ^ 2 + (c : ℚ) ^ 2) * v ^ 2) ^ 3 =
            ((a : ℚ) ^ 2 + (b : ℚ) ^ 2 + (c : ℚ) ^ 2) ^ 3 * v ^ 6 := by ring
        rw [expand] at hcube
        rw [mul_comm] at hcube
        exact le_of_mul_le_mul_left hcube hv6
      exact_mod_cast hfinal
    · intro i hi
      rcases List.mem_map.mp hi with ⟨q, _, hq⟩
      rw [← hq]
      exact nearestIdx_lt hn q

/-- Witness for C5 at a concrete input: three points, cap 2, voxel size 2
(`diagSq = 2`, so `2³ = 8 ≤ 2⁶·2² = 256`). -/
theorem c5_downsample_bounds_witness :
    (downsample_points [((0 : ℚ), 0, 0), (1, 0, 0), (0, 1, 0)] 2 2).1.length ≤ 3 ∧
      (downsample_points [((0 : ℚ), 0, 0), (1, 0, 0), (0, 1, 0)] 2 2).1.length ≤ 2 * 2 ∧
      (downsample_points [((0 : ℚ), 0, 0), (1, 0, 0), (0, 1, 0)] 2 2).2.length =
        (downsample_points [((0 : ℚ), 0, 0), (1, 0, 0), (0, 1, 0)] 2 2).1.length ∧
      ∀ i ∈ (downsample_points [((0 : ℚ), 0, 0), (1, 0, 0), (0, 1, 0)] 2 2).2, i < 3 :=
  c5_downsample_bounds [((0 : ℚ), 0, 0), (1, 0, 0), (0, 1, 0)] 2 2
    (by norm_num) (by norm_num) (by with_unfolding_all decide)

/-! ### SegmentationPipeline (`segment_buildings_optimized`, lines 202-291) -/

/-- The point set a cell's DBSCAN actually runs on: the downsampled sample
when the cell exceeds the per-cluster cap, the raw cell points otherwise
(source lines 229-240, `cell_points_sample`).

The voxel size `v` is the one the source computes per cell at line 188,
`voxel_size = diagonal / np.cbrt(target_size)` with `target_size = cap`:
a run of the source on a given cell corresponds exactly to the `v > 0`
with `v ^ 6 * cap ^ 2 = diagSq cellPts ^ 3` (the sixth power removes the
irrational cube root; over the positive rationals this pins `v`
uniquely).  Theorems about a specific run carry that equation as a
hypothesis; invariant-style theorems quantify over every `v` and so cover
the source's value in particular. -/
def cellSample (cap : ℕ) (v : ℚ) (cellPts : List Q3) : List Q3 :=
  if cap < cellPts.length then (downsample_points cellPts cap v).1 else cellPts

/-- The sample points carrying a given DBSCAN label (source:
`cell_points_sample[cluster_mask]`). -/
def labelMembers (sample : List Q3) (labels : List ℤ) (lab : ℤ) : List Q3 :=
  ((sample.zip labels).filter (fun pl => pl.2 = lab)).map Prod.fst

/-- Cluster emission for one grid cell (source lines 242-268): run DBSCAN
on the sample, skip the noise label, and for each cluster label either
take the sample members directly (small cell) or — when the cell was
downsampled — re-expand by taking every original cell point strictly
within `2·eps` of the sample cluster's centroid; emit the cluster when it
still has at least `min_points` points. -/
def cellClusters (eps : ℚ) (minPts cap : ℕ) (v : ℚ) (cellPts : List Q3) :
    List (List Q3) :=
  (sortedUniq (dbscanLabels (cellSample cap v cellPts) eps minPts)).filterMap
    (fun lab =>
      if lab = -1 then none
      else
        let members := labelMembers (cellSample cap v cellPts)
          (dbscanLabels (cellSample cap v cellPts) eps minPts) lab
        let clusterPts :=
          if cap < cellPts.length then
            cellPts.filter
              (fun p => sqDist3 p (centroid members) < (eps * 2) ^ 2)
          else members
        if minPts ≤ clusterPts.length then some clusterPts else none)

/-- The concatenated per-cell cluster list (`all_clusters`,
source lines 220-277). -/
def allClusters (pts : List Q3) (eps : ℚ) (minPts : ℕ) (g : ℚ) (cap : ℕ)
    (v : ℚ) : List (List Q3) :=
  (create_spatial_grid pts g).flatMap
    (fun cell => cellClusters eps minPts cap v
      (cell.2.map (fun i => pts.getD i z3)))

/-- `segment_buildings_optimized`: spatial gridding, per-cell clustering,
then cross-cell merging (source lines 202-291; the merge runs only when at
least one cluster was found). -/
def segment_buildings_optimized (pts : List Q3) (eps : ℚ) (minPts : ℕ)
    (g : ℚ) (cap : ℕ) (v : ℚ) : List (List Q3) :=
  let cs := allClusters pts eps minPts g cap v
  if 0 < cs.length then merge_adjacent_clusters cs eps else []

/-- Claim C1 (amended): in a cell that exceeds the per-cluster cap, every
emitted cluster is exactly the set of original cell points strictly within
`2·eps` of the centroid of one (non-noise) sample cluster.  Membership is
therefore extended to every original point in that ball — but it is
replaced, not extended: downsampled members farther than `2·eps` from the
centroid are discarded. -/
theorem c1_reexpansion (eps : ℚ) (minPts cap : ℕ) (v : ℚ)
    (cellPts : List Q3) (c : List Q3) (heps : 0 < eps) (hv : 0 < v)
    (hvsrc : v ^ 6 * (cap : ℚ) ^ 2 = diagSq cellPts ^ 3)
    (hover : cap < cellPts.length)
    (hc : c ∈ cellClusters eps minPts cap v cellPts) :
    ∃ lab, lab ∈ dbscanLabels (cellSample cap v cellPts) eps minPts ∧
      lab ≠ -1 ∧
      c = cellPts.filter (fun p =>
        sqDist3 p (centroid (labelMembers (cellSample cap v cellPts)
          (dbscanLabels (cellSample cap v cellPts) eps minPts) lab)) <
        (eps * 2) ^ 2) ∧
      minPts ≤ c.length ∧
      ∀ p ∈ cellPts,
        sqDist3 p (centroid (labelMembers (cellSample cap v cellPts)
          (dbscanLabels (cellSample cap v cellPts) eps minPts) lab)) <
          (eps * 2) ^ 2 → p ∈ c := by
  unfold cellClusters at hc
  rcases List.mem_filterMap.mp hc with ⟨lab, hlab, hsome⟩
  have hlabmem : lab ∈ dbscanLabels (cellSample cap v cellPts) eps minPts :=
    mem_dedupF.mp ((mem_sortAsc lab _).mp hlab)
  by_cases h1 : lab = -1
  · rw [if_pos h1] at hsome
    exact absurd hsome (by simp)
  · rw [if_neg h1] at hsome
    simp only [if_pos hover] at hsome
    set ext := cellPts.filter (fun p =>
      sqDist3 p (centroid (labelMembers (cellSample cap v cellPts)
        (dbscanLabels (cellSample cap v cellPts) eps minPts) lab)) <
      (eps * 2) ^ 2) with hext
    by_cases h2 : minPts ≤ ext.length
    · rw [if_pos h2] at hsome
      have hceq : c = ext := by
        injection hsome with h
        exact h.symm
      refine ⟨lab, hlabmem, h1, by rw [hceq], by rw [hceq]; exact h2, ?_⟩
      intro p hp hd
      rw [hceq, hext]
      exact List.mem_filter.mpr ⟨hp, decide_eq_true hd⟩
    · rw [if_neg h2] at hsome
      exact absurd hsome (by simp)

/-- The cell used for the C1 counterexample: 126 points on the x-axis
spanning `[0, 50]`, so that with cap 125 the source's line 188 computes
`voxel_size = diagonal / np.cbrt(125) = 50 / 5 = 10` exactly.  The six
occupied voxels have centroids `2.5, 12, 21.5, 31, 40.5, 50` (one per
voxel; every coordinate sits in the lower half of its voxel, so the
grouping is anchor-robust, and all values are exact binary fractions, so
the floating-point trace is exact). -/
def chainCell : List Q3 :=
  ((0, 0, 0) :: List.replicate 5 ((3 : ℚ), 0, 0)) ++
    [((12 : ℚ), 0, 0)] ++
    List.replicate 110 ((43/2 : ℚ), 0, 0) ++
    [((31 : ℚ), 0, 0), ((81/2 : ℚ), 0, 0)] ++
    List.replicate 7 ((50 : ℚ), 0, 0)

/-- The cluster the source emits for `chainCell`: the original points
strictly within `2·eps = 19` of the sample-cluster centroid `x = 26.25`. -/
def c1EmittedCluster : List Q3 :=
  ((12 : ℚ), 0, 0) :: List.replicate 110 ((43/2 : ℚ), 0, 0) ++
    [((31 : ℚ), 0, 0), ((81/2 : ℚ), 0, 0)]

/-- `listMax` is the unique upper bound attained in the list. -/
theorem listMax_eq_of (l : List ℚ) (c : ℚ) (hmem : c ∈ l)
    (hub : ∀ x ∈ l, x ≤ c) : listMax l = c :=
  le_antisymm (hub _ (listMax_mem (List.ne_nil_of_mem hmem))) (le_listMax hmem)

/-- `listMin` is the unique lower bound attained in the list. -/
theorem listMin_eq_of (l : List ℚ) (c : ℚ) (hmem : c ∈ l)
    (hlb : ∀ x ∈ l, c ≤ x) : listMin l = c :=
  le_antisymm (listMin_le hmem) (hlb _ (listMin_mem (List.ne_nil_of_mem hmem)))

set_option maxRecDepth 6000 in
set_option maxHeartbeats 1000000 in
theorem xs_chain_max : listMax (xsOf chainCell) = 50 :=
  listMax_eq_of _ _ (by with_unfolding_all decide) (by with_unfolding_all decide)

set_option maxRecDepth 6000 in
set_option maxHeartbeats 1000000 in
theorem xs_chain_min : listMin (xsOf chainCell) = 0 :=
  listMin_eq_of _ _ (by with_unfolding_all decide) (by with_unfolding_all decide)

set_option maxRecDepth 6000 in
set_option maxHeartbeats 1000000 in
theorem ys_chain_max : listMax (ysOf chainCell) = 0 :=
  listMax_eq_of _ _ (by with_unfolding_all decide) (by with_unfolding_all decide)

set_option maxRecDepth 6000 in
set_option maxHeartbeats 1000000 in
theorem ys_chain_min : listMin (ysOf chainCell) = 0 :=
  listMin_eq_of _ _ (by with_unfolding_all decide) (by with_unfolding_all decide)

set_option maxRecDepth 6000 in
set_option maxHeartbeats 1000000 in
theorem zs_chain_max : listMax (zsOf chainCell) = 0 :=
  listMax_eq_of _ _ (by with_unfolding_all decide) (by with_unfolding_all decide)

set_option maxRecDepth 6000 in
set_option maxHeartbeats 1000000 in
theorem zs_chain_min : listMin (zsOf chainCell) = 0 :=
  listMin_eq_of _ _ (by with_unfolding_all decide) (by with_unfolding_all decide)

/-- The bounding box of `chainCell` has minimum corner at the origin. -/
theorem bboxMin_chain : bboxMinOf chainCell = ((0 : ℚ), (0 : ℚ), (0 : ℚ)) := by
  unfold bboxMinOf
  rw [xs_chain_min, ys_chain_min, zs_chain_min]

/-- The squared bounding-box diagonal of `chainCell` is `50² = 2500`. -/
theorem diagSq_chain : diagSq chainCell = 2500 := by
  unfold diagSq
  rw [xs_chain_max, xs_chain_min, ys_chain_max, ys_chain_min, zs_chain_max,
    zs_chain_min]
  norm_num

/-- The downsampled `chainCell`: one centroid per occupied voxel of size 10. -/
def chainSample : List Q3 :=
  [((5/2 : ℚ), 0, 0), ((12 : ℚ), 0, 0), ((43/2 : ℚ), 0, 0), ((31 : ℚ), 0, 0),
    ((81/2 : ℚ), 0, 0), ((50 : ℚ), 0, 0)]

set_option maxRecDepth 6000 in
set_option maxHeartbeats 2000000 in
/-- Concrete evaluation: downsampling `chainCell` with the source's voxel
size 10 yields the six voxel centroids of `chainSample`. -/
theorem cellSample_chain : cellSample 125 10 chainCell = chainSample := by
  have hlen : ¬ chainCell.length ≤ 125 := by with_unfolding_all decide
  have h2 : 125 < chainCell.length := by with_unfolding_all decide
  unfold cellSample downsample_points
  rw [if_pos h2, if_neg hlen]
  show voxelCentroids 10 chainCell = chainSample
  unfold voxelCentroids
  rw [bboxMin_chain]
  with_unfolding_all decide

set_option maxRecDepth 6000 in
set_option maxHeartbeats 1000000 in
/-- Concrete evaluation: with `eps = 9.5` and `min_points = 1` the six
sample centroids chain into a single DBSCAN cluster (label 0). -/
theorem labels_chain :
    dbscanLabels chainSample (19/2) 1 = [0, 0, 0, 0, 0, 0] := by
  with_unfolding_all decide

set_option maxRecDepth 6000 in
set_option maxHeartbeats 2000000 in
/-- Concrete evaluation: the cell emits exactly one cluster, the `2·eps`
ball filter around the sample-cluster centroid `x = 26.25`. -/
theorem cellClusters_chain :
    cellClusters (19/2) 1 125 10 chainCell = [c1EmittedCluster] := by
  unfold cellClusters
  simp only [cellSample_chain, labels_chain]
  with_unfolding_all decide

set_option maxRecDepth 6000 in
set_option maxHeartbeats 1000000 in
/-- Counterexample for C1 as stated, at a run the source itself performs:
`chainCell` has 126 > 125 = cap points and the voxel size 10 used here is
exactly the source's `diagonal / np.cbrt(cap)` (witnessed by
`10^6·125² = diagSq³`).  The sample is the six voxel centroids
`2.5, 12, 21.5, 31, 40.5, 50`; with `eps = 9.5` and `min_points = 1` they
are spaced exactly `eps` apart and form one DBSCAN cluster with centroid
`x = 26.25`.  Its downsampled member `(50,0,0)` — itself an original cell
point — lies 23.75 m from the centroid, farther than `2·eps = 19`, and is
discarded by re-expansion: the emitted membership does not contain all of
the cluster's downsampled members. -/
theorem c1_counterexample :
    125 < chainCell.length ∧
      (0 : ℚ) < 10 ∧
      (10 : ℚ) ^ 6 * (125 : ℚ) ^ 2 = diagSq chainCell ^ 3 ∧
      ((50 : ℚ), (0 : ℚ), (0 : ℚ)) ∈ chainCell ∧
      ((50 : ℚ), (0 : ℚ), (0 : ℚ)) ∈
        labelMembers (cellSample 125 10 chainCell)
          (dbscanLabels (cellSample 125 10 chainCell) (19/2) 1) 0 ∧
      (cellClusters (19/2) 1 125 10 chainCell).length = 1 ∧
      ((50 : ℚ), (0 : ℚ), (0 : ℚ)) ∉
        (cellClusters (19/2) 1 125 10 chainCell).getD 0 [] := by
  refine ⟨by with_unfolding_all decide, by norm_num, ?_, ?_, ?_, ?_, ?_⟩
  · rw [diagSq_chain]; norm_num
  · with_unfolding_all decide
  · rw [cellSample_chain, labels_chain]
    with_unfolding_all decide
  · rw [cellClusters_chain]
    rfl
  · rw [cellClusters_chain]
    with_unfolding_all decide

set_option maxRecDepth 6000 in
set_option maxHeartbeats 1000000 in
/-- Witness for C1 (amended) at the same source-realizable run on
`chainCell` (voxel size 10 = diagonal/∛cap): the emitted cluster is the
strict `2·eps` ball filter around a sample cluster centroid. -/
theorem c1_reexpansion_witness :
    ∃ lab, lab ∈ dbscanLabels (cellSample 125 10 chainCell) (19/2) 1 ∧
      lab ≠ -1 ∧
      c1EmittedCluster = chainCell.filter (fun p =>
        sqDist3 p (centroid (labelMembers (cellSample 125 10 chainCell)
          (dbscanLabels (cellSample 125 10 chainCell) (19/2) 1) lab)) <
        ((19/2 : ℚ) * 2) ^ 2) ∧
      1 ≤ c1EmittedCluster.length ∧
      ∀ p ∈ chainCell,
        sqDist3 p (centroid (labelMembers (cellSample 125 10 chainCell)
          (dbscanLabels (cellSample 125 10 chainCell) (19/2) 1) lab)) <
          ((19/2 : ℚ) * 2) ^ 2 →
        p ∈ c1EmittedCluster :=
  c1_reexpansion (19/2) 1 125 10 chainCell c1EmittedCluster (by norm_num)
    (by norm_num) (by rw [diagSq_chain]; norm_num)
    (by with_unfolding_all decide)
    (by rw [cellClusters_chain]; exact List.mem_singleton.mpr rfl)

theorem foldr_append_length_ge (cs : List (List Q3)) (l : List ℕ) (i : ℕ)
    (hi : i ∈ l) :
    (cs.getD i []).length ≤
      (l.foldr (fun j acc => cs.getD j [] ++ acc) []).length := by
  induction l with
  | nil => simp at hi
  | cons j t ih =>
    rw [List.foldr_cons, List.length_append]
    rcases List.mem_cons.mp hi with rfl | hi'
    · omega
    · have := ih hi'
      omega

theorem cellClusters_length {eps : ℚ} {minPts cap : ℕ} {v : ℚ}
    {cellPts : List Q3} {c : List Q3}
    (hc : c ∈ cellClusters eps minPts cap v cellPts) : minPts ≤ c.length := by
  unfold cellClusters at hc
  rcases List.mem_filterMap.mp hc with ⟨lab, _, hsome⟩
  by_cases h1 : lab = -1
  · rw [if_pos h1] at hsome; exact absurd hsome (by simp)
  · rw [if_neg h1] at hsome
    simp only at hsome
    split at hsome <;> split at hsome <;>
      first
        | (injection hsome with h; subst h; assumption)
        | exact absurd hsome (by simp)

theorem merge_preserves_min {cs : List (List Q3)} {eps : ℚ} {minPts : ℕ}
    (hcs : ∀ cl ∈ cs, minPts ≤ cl.length) {b : List Q3}
    (hb : b ∈ merge_adjacent_clusters cs eps) : minPts ≤ b.length := by
  unfold merge_adjacent_clusters at hb
  by_cases hlen : cs.length ≤ 1
  · rw [if_pos hlen] at hb
    exact hcs b hb
  · rw [if_neg hlen] at hb
    simp only at hb
    rcases List.mem_map.mp hb with ⟨lab, hlab, hbeq⟩
    have hlabmem : lab ∈ dbscanLabels (cs.map centroid) (eps * 2) 1 :=
      mem_dedupF.mp ((mem_sortAsc lab _).mp hlab)
    rcases List.mem_iff_getElem.mp hlabmem with ⟨i, hilen, hival⟩
    have hin : i < cs.length := by
      rw [dbscanLabels_length, List.length_map] at hilen
      exact hilen
    have higetD : (dbscanLabels (cs.map centroid) (eps * 2) 1).getD i (-2) =
        lab := by
      rw [List.getD_eq_getElem _ _ hilen, hival]
    have hifil : i ∈ (List.range cs.length).filter
        (fun j => (dbscanLabels (cs.map centroid) (eps * 2) 1).getD j (-2) =
          lab) :=
      List.mem_filter.mpr ⟨List.mem_range.mpr hin, decide_eq_true higetD⟩
    have hgei := foldr_append_length_ge cs _ i hifil
    have hmem : cs.getD i [] ∈ cs := by
      rw [List.getD_eq_getElem _ _ hin]
      exact cs.getElem_mem hin
    have := hcs _ hmem
    rw [hbeq] at hgei
    omega

/-- Claim C7 (amended): every cluster emitted by per-cell segmentation has
cardinality at least `min_points`; no emitted cluster is built from the
noise label (the `-1` group is skipped); and every building output by the
merged segmentation likewise has cardinality at least `min_points`.  (The
claim's stronger reading — that noise-labeled points never appear in any
cluster — fails: in a downsampled cell, re-expansion readmits noise-labeled
sample points near a cluster centroid; see the counterexample.) -/
theorem c7_minpts_invariant (pts : List Q3) (eps : ℚ) (minPts : ℕ) (g : ℚ)
    (cap : ℕ) (v : ℚ) :
    (∀ cl ∈ allClusters pts eps minPts g cap v, minPts ≤ cl.length) ∧
      (∀ b ∈ segment_buildings_optimized pts eps minPts g cap v,
        minPts ≤ b.length) ∧
      (∀ cellPts : List Q3, ∀ cl ∈ cellClusters eps minPts cap v cellPts,
        ∃ lab, lab ≠ -1 ∧
          lab ∈ sortedUniq (dbscanLabels (cellSample cap v cellPts) eps minPts)) := by
  have hall : ∀ cl ∈ allClusters pts eps minPts g cap v, minPts ≤ cl.length := by
    intro cl hcl
    rcases List.mem_flatMap.mp hcl with ⟨cell, _, hcell⟩
    exact cellClusters_length hcell
  refine ⟨hall, ?_, ?_⟩
  · intro b hb
    unfold segment_buildings_optimized at hb
    simp only at hb
    split at hb
    · exact merge_preserves_min hall hb
    · simp at hb
  · intro cellPts cl hcl
    unfold cellClusters at hcl
    rcases List.mem_filterMap.mp hcl with ⟨lab, hlab, hsome⟩
    by_cases h1 : lab = -1
    · rw [if_pos h1] at hsome; exact absurd hsome (by simp)
    · exact ⟨lab, h1, hlab⟩

/-- The cell used for the C7 counterexample: 126 points on the x-axis
spanning `[0, 50]`, so that with cap 125 the source's line 188 computes
`voxel_size = diagonal / np.cbrt(125) = 50 / 5 = 10` exactly.  The six
occupied voxels have centroids `4, 11, 20, 31, 41, 50` (one per voxel;
every coordinate sits in the lower half of its voxel, so the grouping is
anchor-robust, and all values are exact binary fractions, so the
floating-point trace is exact). -/
def noiseCell : List Q3 :=
  ((0, 0, 0) :: List.replicate 5 ((24/5 : ℚ), 0, 0)) ++
    List.replicate 5 ((11 : ℚ), 0, 0) ++
    List.replicate 100 ((20 : ℚ), 0, 0) ++
    [((31 : ℚ), 0, 0), ((41 : ℚ), 0, 0)] ++
    List.replicate 13 ((50 : ℚ), 0, 0)

/-- The downsampled `noiseCell`: one centroid per occupied voxel of size 10. -/
def noiseSample : List Q3 :=
  [((4 : ℚ), 0, 0), ((11 : ℚ), 0, 0), ((20 : ℚ), 0, 0), ((31 : ℚ), 0, 0),
    ((41 : ℚ), 0, 0), ((50 : ℚ), 0, 0)]

/-- The cluster the source emits for `noiseCell`: the original points
strictly within `2·eps = 14` of the sample-cluster centroid `x = 7.5`. -/
def noiseEmittedCluster : List Q3 :=
  ((0, 0, 0) :: List.replicate 5 ((24/5 : ℚ), 0, 0)) ++
    List.replicate 5 ((11 : ℚ), 0, 0) ++
    List.replicate 100 ((20 : ℚ), 0, 0)

set_option maxRecDepth 6000 in
set_option maxHeartbeats 1000000 in
theorem xs_noise_max : listMax (xsOf noiseCell) = 50 :=
  listMax_eq_of _ _ (by with_unfolding_all decide) (by with_unfolding_all decide)

set_option maxRecDepth 6000 in
set_option maxHeartbeats 1000000 in
theorem xs_noise_min : listMin (xsOf noiseCell) = 0 :=
  listMin_eq_of _ _ (by with_unfolding_all decide) (by with_unfolding_all decide)

set_option maxRecDepth 6000 in
set_option maxHeartbeats 1000000 in
theorem ys_noise_max : listMax (ysOf noiseCell) = 0 :=
  listMax_eq_of _ _ (by with_unfolding_all decide) (by with_unfolding_all decide)

set_option maxRecDepth 6000 in
set_option maxHeartbeats 1000000 in
theorem ys_noise_min : listMin (ysOf noiseCell) = 0 :=
  listMin_eq_of _ _ (by with_unfolding_all decide) (by with_unfolding_all decide)

set_option maxRecDepth 6000 in
set_option maxHeartbeats 1000000 in
theorem zs_noise_max : listMax (zsOf noiseCell) = 0 :=
  listMax_eq_of _ _ (by with_unfolding_all decide) (by with_unfolding_all decide)

set_option maxRecDepth 6000 in
set_option maxHeartbeats 1000000 in
theorem zs_noise_min : listMin (zsOf noiseCell) = 0 :=
  listMin_eq_of _ _ (by with_unfolding_all decide) (by with_unfolding_all decide)

/-- The bounding box of `noiseCell` has minimum corner at the origin. -/
theorem bboxMin_noise : bboxMinOf noiseCell = ((0 : ℚ), (0 : ℚ), (0 : ℚ)) := by
  unfold bboxMinOf
  rw [xs_noise_min, ys_noise_min, zs_noise_min]

/-- The squared bounding-box diagonal of `noiseCell` is `50² = 2500`. -/
theorem diagSq_noise : diagSq noiseCell = 2500 := by
  unfold diagSq
  rw [xs_noise_max, xs_noise_min, ys_noise_max, ys_noise_min, zs_noise_max,
    zs_noise_min]
  norm_num

set_option maxRecDepth 6000 in
set_option maxHeartbeats 2000000 in
/-- Concrete evaluation: downsampling `noiseCell` with the source's voxel
size 10 yields the six voxel centroids of `noiseSample`. -/
theorem cellSample_noise : cellSample 125 10 noiseCell = noiseSample := by
  have hlen : ¬ noiseCell.length ≤ 125 := by with_unfolding_all decide
  have h2 : 125 < noiseCell.length := by with_unfolding_all decide
  unfold cellSample downsample_points
  rw [if_pos h2, if_neg hlen]
  show voxelCentroids 10 noiseCell = noiseSample
  unfold voxelCentroids
  rw [bboxMin_noise]
  with_unfolding_all decide

set_option maxRecDepth 6000 in
set_option maxHeartbeats 1000000 in
/-- Concrete evaluation: with `eps = 7` and `min_points = 2` the sample
centroids `4` and `11` form cluster 0 and the rest are noise. -/
theorem labels_noise :
    dbscanLabels noiseSample 7 2 = [0, 0, -1, -1, -1, -1] := by
  with_unfolding_all decide

set_option maxRecDepth 6000 in
set_option maxHeartbeats 2000000 in
/-- Concrete evaluation: the cell emits exactly one cluster, the `2·eps`
ball filter around the sample-cluster centroid `x = 7.5`. -/
theorem cellClusters_noise :
    cellClusters 7 2 125 10 noiseCell = [noiseEmittedCluster] := by
  unfold cellClusters
  simp only [cellSample_noise, labels_noise]
  with_unfolding_all decide

set_option maxRecDepth 6000 in
set_option maxHeartbeats 2000000 in
/-- Concrete evaluation: with grid size 100 every `noiseCell` point falls
in the single grid cell `(0, 0)`. -/
theorem grid_noise :
    create_spatial_grid noiseCell 100 = [((0, 0), List.range 126)] := by
  with_unfolding_all decide

set_option maxRecDepth 6000 in
set_option maxHeartbeats 1000000 in
/-- Concrete evaluation: indexing `noiseCell` by `0, …, 125` returns it. -/
theorem mapGetD_noise :
    (List.range 126).map (fun i => noiseCell.getD i z3) = noiseCell := by
  with_unfolding_all decide

/-- Concrete evaluation: the single cell of `noiseCell` yields the single
emitted cluster. -/
theorem allClusters_noise :
    allClusters noiseCell 7 2 100 125 10 = [noiseEmittedCluster] := by
  unfold allClusters
  rw [grid_noise]
  simp only [List.flatMap_cons, List.flatMap_nil, List.append_nil]
  rw [mapGetD_noise, cellClusters_noise]

/-- Concrete evaluation: the full segmentation of `noiseCell` returns the
single emitted cluster unchanged (a one-cluster list is not merged). -/
theorem seg_noise :
    segment_buildings_optimized noiseCell 7 2 100 125 10 =
      [noiseEmittedCluster] := by
  unfold segment_buildings_optimized
  simp only [allClusters_noise]
  rw [if_pos
    (by norm_num : 0 < ([noiseEmittedCluster] : List (List Q3)).length)]
  unfold merge_adjacent_clusters
  rw [if_pos
    (by norm_num : ([noiseEmittedCluster] : List (List Q3)).length ≤ 1)]

set_option maxRecDepth 6000 in
set_option maxHeartbeats 1000000 in
/-- Counterexample for C7 as stated ("noise-labeled points are
discarded"), at a run the source itself performs: `noiseCell` has
126 > 125 = cap points and the voxel size 10 used here is exactly the
source's `diagonal / np.cbrt(cap)` (witnessed by `10^6·125² = diagSq³`).
The sample is the six voxel centroids `4, 11, 20, 31, 41, 50`; DBSCAN with
`eps = 7`, `min_points = 2` clusters `{4, 11}` (centroid `7.5`) and labels
the sample point `(20,0,0)` — itself an original cell point — as noise
(label `-1`), yet re-expansion readmits it: it lies 12.5 m from the
cluster centroid, inside the `2·eps = 14` ball, so the emitted cluster
contains the noise-labeled point. -/
theorem c7_counterexample :
    125 < noiseCell.length ∧
      (0 : ℚ) < 10 ∧
      (10 : ℚ) ^ 6 * (125 : ℚ) ^ 2 = diagSq noiseCell ^ 3 ∧
      (((20 : ℚ), (0 : ℚ), (0 : ℚ)), (-1 : ℤ)) ∈
        (cellSample 125 10 noiseCell).zip
          (dbscanLabels (cellSample 125 10 noiseCell) 7 2) ∧
      ((20 : ℚ), (0 : ℚ), (0 : ℚ)) ∈
        (cellClusters 7 2 125 10 noiseCell).getD 0 [] ∧
      (cellClusters 7 2 125 10 noiseCell).length = 1 := by
  refine ⟨by with_unfolding_all decide, by norm_num, ?_, ?_, ?_, ?_⟩
  · rw [diagSq_noise]; norm_num
  · rw [cellSample_noise, labels_noise]
    with_unfolding_all decide
  · rw [cellClusters_noise]
    with_unfolding_all decide
  · rw [cellClusters_noise]
    rfl

set_option maxRecDepth 6000 in
set_option maxHeartbeats 1000000 in
/-- Witness for C7 (amended) at the same source-realizable run on
`noiseCell` (voxel size 10 = diagonal/∛cap): the single emitted building
of the full segmentation has at least `min_points = 2` members. -/
theorem c7_minpts_invariant_witness :
    2 ≤ ((segment_buildings_optimized noiseCell 7 2 100 125
        10).getD 0 []).length :=
  (c7_minpts_invariant noiseCell 7 2 100 125 10).2.1
    ((segment_buildings_optimized noiseCell 7 2 100 125 10).getD 0 [])
    (by rw [seg_noise]; exact List.mem_singleton.mpr rfl)

/-! ### PlaneExtractor (`extract_planes_ransac`, lines 404-438)

The iterative removal loop is source code; each `segment_plane` call is an
external open3d RANSAC invocation, modelled as an abstract fitting oracle
constrained by what §4.5 of the spec promises of one invocation. -/

/-- Coefficients `(a, b, c, d)` of the implicit plane `ax + by + cz + d = 0`. -/
abbrev Plane := ℚ × ℚ × ℚ × ℚ

/-- Boolean inlier test: the point lies within distance `τ` of the plane
(`|ax+by+cz+d| ≤ τ·‖(a,b,c)‖`, in squared form). -/
def inlPred (pl : Plane) (τ : ℚ) (p : Q3) : Bool :=
  (pl.1 * p.1 + pl.2.1 * p.2.1 + pl.2.2.1 * p.2.2 + pl.2.2.2) ^ 2 ≤
    τ ^ 2 * (pl.1 ^ 2 + pl.2.1 ^ 2 + pl.2.2.1 ^ 2)

/-- Indices (into the current pool) of the inliers of a plane. -/
def planeInliers (pl : Plane) (τ : ℚ) (pool : List Q3) : List ℕ :=
  (List.range pool.length).filter (fun i => inlPred pl τ (pool.getD i z3))

/-- Modelled from the spec: one `open3d segment_plane` invocation
(external RANSAC call over 1000 random trials).  The oracle may return a
plane with its inlier index list, or fail (the source catches the
exception and breaks). -/
structure FitOracle where
  fit : List Q3 → Option (Plane × List ℕ)

/-- What §4.5 promises of one RANSAC invocation: the returned indices are
exactly the tolerance-`τ` inliers of the returned plane within the current
pool, and no plane has strictly more inliers in that pool ("select the
trial with the most inliers"). -/
def FitSound (τ : ℚ) (F : FitOracle) : Prop :=
  ∀ pool pl inl, F.fit pool = some (pl, inl) →
    inl = planeInliers pl τ pool ∧
      ∀ pl', (planeInliers pl' τ pool).length ≤ inl.length

/-- `select_by_index(inliers, invert=True)`: keep the points whose index is
not in the inlier list, preserving order (source line 432). -/
def removeIdx (pool : List Q3) (inl : List ℕ) : List Q3 :=
  (pool.enum.filter (fun pi => !(pi.1 ∈ inl : Bool))).map Prod.snd

/-- The extraction loop (source lines 409-436): stop when fewer than 100
points remain, when fitting fails, or when the best plane has fewer than
100 inliers; otherwise record `(model, num_points)` and drop the inliers
from the pool.  `max_iterations = 5`. -/
def extractPlanesGo (τ : ℚ) (F : FitOracle) : ℕ → List Q3 → List (Plane × ℕ)
  | 0, _ => []
  | fuel + 1, pool =>
    if pool.length < 100 then []
    else
      match F.fit pool with
      | none => []
      | some (pl, inl) =>
        if inl.length < 100 then []
        else (pl, inl.length) :: extractPlanesGo τ F fuel (removeIdx pool inl)

/-- `extract_planes_ransac` (source lines 404-438). -/
def extract_planes_ransac (τ : ℚ) (F : FitOracle) (pts : List Q3) :
    List (Plane × ℕ) :=
  extractPlanesGo τ F 5 pts

theorem extractPlanesGo_succ (τ : ℚ) (F : FitOracle) (fuel : ℕ)
    (pool : List Q3) :
    extractPlanesGo τ F (fuel + 1) pool =
      if pool.length < 100 then []
      else
        match F.fit pool with
        | none => []
        | some (pl, inl) =>
          if inl.length < 100 then []
          else (pl, inl.length) ::
            extractPlanesGo τ F fuel (removeIdx pool inl) := rfl

theorem map_getD_range (pool : List Q3) :
    (List.range pool.length).map (fun i => pool.getD i z3) = pool := by
  apply List.ext_getElem (by simp)
  intro i h1 h2
  simp only [List.getElem_map, List.getElem_range]
  rw [List.getD_eq_getElem _ _ h2]

theorem planeInliers_length_countP (pl : Plane) (τ : ℚ) (pool : List Q3) :
    (planeInliers pl τ pool).length = pool.countP (inlPred pl τ) := by
  unfold planeInliers
  rw [← List.countP_eq_length_filter]
  have : pool.countP (inlPred pl τ) =
      ((List.range pool.length).map (fun i => pool.getD i z3)).countP
        (inlPred pl τ) := by rw [map_getD_range]
  rw [this, List.countP_map]
  rfl

theorem removeIdx_sublist (pool : List Q3) (inl : List ℕ) :
    (removeIdx pool inl).Sublist pool := by
  unfold removeIdx
  have h1 : (pool.enum.filter (fun pi => !(pi.1 ∈ inl : Bool))).Sublist
      pool.enum := List.filter_sublist _
  have h2 := h1.map Prod.snd
  rwa [List.enum_map_snd] at h2

theorem planeInliers_nodup (pl : Plane) (τ : ℚ) (pool : List Q3) :
    (planeInliers pl τ pool).Nodup :=
  (List.nodup_range pool.length).filter _

theorem planeInliers_lt (pl : Plane) (τ : ℚ) (pool : List Q3) :
    ∀ i ∈ planeInliers pl τ pool, i < pool.length := by
  intro i hi
  exact List.mem_range.mp (List.mem_of_mem_filter hi)

theorem removeIdx_length (pool : List Q3) (inl : List ℕ) (hnd : inl.Nodup)
    (hlt : ∀ i ∈ inl, i < pool.length) :
    (removeIdx pool inl).length = pool.length - inl.length := by
  unfold removeIdx
  rw [List.length_map, ← List.countP_eq_length_filter]
  have key : pool.enum.countP (fun pi => (pi.1 ∈ inl : Bool)) = inl.length := by
    have h1 : pool.enum.countP (fun pi => (pi.1 ∈ inl : Bool)) =
        (pool.enum.map Prod.fst).countP (fun i => (i ∈ inl : Bool)) := by
      rw [List.countP_map]
      rfl
    rw [h1, List.enum_map_fst, List.countP_eq_length_filter]
    have hnd2 : ((List.range pool.length).filter
        (fun i => (i ∈ inl : Bool))).Nodup :=
      (List.nodup_range pool.length).filter _
    have hmemeq : ∀ x, x ∈ (List.range pool.length).filter
        (fun i => (i ∈ inl : Bool)) ↔ x ∈ inl := by
      intro x
      constructor
      · intro hx
        have := List.mem_filter.mp hx
        exact of_decide_eq_true this.2
      · intro hx
        exact List.mem_filter.mpr
          ⟨List.mem_range.mpr (hlt x hx), decide_eq_true hx⟩
    have hfineq : ((List.range pool.length).filter
        (fun i => (i ∈ inl : Bool))).toFinset = inl.toFinset := by
      apply Finset.ext
      intro x
      rw [List.mem_toFinset, List.mem_toFinset]
      exact hmemeq x
    calc ((List.range pool.length).filter (fun i => (i ∈ inl : Bool))).length
        = ((List.range pool.length).filter
            (fun i => (i ∈ inl : Bool))).toFinset.card :=
          (List.toFinset_card_of_nodup hnd2).symm
      _ = inl.toFinset.card := by rw [hfineq]
      _ = inl.length := List.toFinset_card_of_nodup hnd
  have total := List.length_eq_countP_add_countP
    (fun pi : ℕ × Q3 => (pi.1 ∈ inl : Bool)) pool.enum
  have hcongr : pool.enum.countP (fun pi => decide ¬((pi.1 ∈ inl : Bool) = true))
      = pool.enum.countP (fun pi => !(pi.1 ∈ inl : Bool)) := by
    apply List.countP_congr
    intro a _
    by_cases h : a.1 ∈ inl <;> simp [h]
  rw [hcongr] at total
  have hel : pool.enum.length = pool.length := by simp
  omega

theorem extractGo_sum (τ : ℚ) (F : FitOracle) (hF : FitSound τ F) :
    ∀ (fuel : ℕ) (pool : List Q3),
      ((extractPlanesGo τ F fuel pool).map Prod.snd).sum ≤ pool.length := by
  intro fuel
  induction fuel with
  | zero => intro pool; simp [extractPlanesGo]
  | succ n ih =>
    intro pool
    rw [extractPlanesGo_succ]
    by_cases h1 : pool.length < 100
    · rw [if_pos h1]; simp
    · rw [if_neg h1]
      cases hfit : F.fit pool with
      | none => simp
      | some r =>
        rcases r with ⟨pl, inl⟩
        dsimp only
        by_cases h2 : inl.length < 100
        · rw [if_pos h2]; simp
        · rw [if_neg h2]
          simp only [List.map_cons, List.sum_cons]
          rcases hF pool pl inl hfit with ⟨hinl, _⟩
          have hnd : inl.Nodup := hinl ▸ planeInliers_nodup pl τ pool
          have hlt : ∀ i ∈ inl, i < pool.length :=
            hinl ▸ planeInliers_lt pl τ pool
          have hrem := removeIdx_length pool inl hnd hlt
          have hcnt : inl.length ≤ pool.length := by
            rw [hinl, planeInliers_length_countP]
            exact List.countP_le_length _
          have := ih (removeIdx pool inl)
          rw [hrem] at this
          omega

theorem extractGo_chain (τ : ℚ) (F : FitOracle) (hF : FitSound τ F) :
    ∀ (fuel : ℕ) (pool : List Q3),
      List.Chain' (fun a b : Plane × ℕ => b.2 ≤ a.2)
        (extractPlanesGo τ F fuel pool) := by
  intro fuel
  induction fuel with
  | zero => intro pool; simp [extractPlanesGo]
  | succ n ih =>
    intro pool
    rw [extractPlanesGo_succ]
    by_cases h1 : pool.length < 100
    · rw [if_pos h1]; simp
    · rw [if_neg h1]
      cases hfit : F.fit pool with
      | none => simp
      | some r =>
        rcases r with ⟨pl, inl⟩
        dsimp only
        by_cases h2 : inl.length < 100
        · rw [if_pos h2]; simp
        · rw [if_neg h2]
          rw [List.chain'_cons']
          refine ⟨?_, ih (removeIdx pool inl)⟩
          intro y hy
          -- the head of the recursive call, if any, is a fit on the
          -- reduced pool; its inlier count cannot beat the previous one
          cases n with
          | zero => simp [extractPlanesGo] at hy
          | succ n' =>
            rw [extractPlanesGo_succ] at hy
            by_cases h3 : (removeIdx pool inl).length < 100
            · rw [if_pos h3] at hy; simp at hy
            · rw [if_neg h3] at hy
              cases hfit2 : F.fit (removeIdx pool inl) with
              | none => rw [hfit2] at hy; simp at hy
              | some r2 =>
                rcases r2 with ⟨pl2, inl2⟩
                rw [hfit2] at hy
                dsimp only at hy
                by_cases h4 : inl2.length < 100
                · rw [if_pos h4] at hy; simp at hy
                · rw [if_neg h4] at hy
                  simp only [List.head?_cons, Option.mem_def,
                    Option.some.injEq] at hy
                  rcases hF _ _ _ hfit2 with ⟨hinl2, _⟩
                  rcases hF _ _ _ hfit with ⟨hinl, hmax⟩
                  have hmono : (planeInliers pl2 τ
                      (removeIdx pool inl)).length ≤
                      (planeInliers pl2 τ pool).length := by
                    rw [planeInliers_length_countP, planeInliers_length_countP]
                    exact (removeIdx_sublist pool inl).countP_le _
                  have hle : inl2.length ≤ inl.length := by
                    rw [hinl2]
                    exact le_trans hmono (hmax pl2)
                  rw [← hy]
                  exact hle

/-- Claim C4: under the spec's contract for one RANSAC invocation
(`FitSound`: returned inliers are the tolerance inliers of the returned
plane and are maximal over the current pool), the plane extractor returns
planes in non-increasing order of inlier count, and the total inlier count
over all returned planes is at most the size of the original point set
(inliers are removed from the pool after each extraction). -/
theorem c4_plane_extraction (τ : ℚ) (F : FitOracle) (hF : FitSound τ F)
    (pts : List Q3) :
    List.Chain' (fun a b : ℕ => b ≤ a)
        ((extract_planes_ransac τ F pts).map Prod.snd) ∧
      ((extract_planes_ransac τ F pts).map Prod.snd).sum ≤ pts.length := by
  constructor
  · rw [List.chain'_map]
    exact extractGo_chain τ F hF 5 pts
  · exact extractGo_sum τ F hF 5 pts

/-- Witness for C4 at a concrete input: the always-failing oracle is
trivially sound, and on the empty point set the extractor returns no
planes. -/
theorem c4_plane_extraction_witness :
    List.Chain' (fun a b : ℕ => b ≤ a)
        ((extract_planes_ransac (3/10) ⟨fun _ => none⟩ []).map Prod.snd) ∧
      ((extract_planes_ransac (3/10) ⟨fun _ => none⟩ []).map Prod.snd).sum ≤
        ([] : List Q3).length :=
  c4_plane_extraction (3/10) ⟨fun _ => none⟩
    (by intro pool pl inl h; simp at h) []

/-! ### MetadataComputer (`compute_building_metadata`, lines 481-511) -/

/-- `np.percentile(data, 20)` with the default linear interpolation: sort
the data ascending, take rank `(n-1)·20/100 = (n-1)/5`, and linearly
interpolate between the neighboring order statistics. -/
def percentile20 (l : List ℚ) : ℚ :=
  let s := sortAsc l
  let rank : ℚ := ((l.length : ℚ) - 1) / 5
  let lo : ℕ := ⌊rank⌋.toNat
  s.getD lo 0 + (rank - lo) * (s.getD (lo + 1) (s.getD lo 0) - s.getD lo 0)

/-- Per-building metadata record (source dataclass `BuildingMetadata`;
the string id and courtyard count are omitted as irrelevant to the
numeric contract). -/
structure BuildingMetadata where
  numPoints : ℕ
  numPlanes : ℕ
  bboxMin : Q3
  bboxMax : Q3
  center : Q3
  areaM2 : ℚ
  heightM : ℚ

/-- `compute_building_metadata` (source lines 481-511): per-axis min/max
bounding box, mean centroid, footprint area as the x-extent times y-extent
of the points strictly below the 20th height percentile (`0.0` when that
subset is empty), and height as the bounding-box z-extent. -/
def compute_building_metadata (pts : List Q3) (numPlanes : ℕ) :
    BuildingMetadata :=
  let fp := pts.filter (fun p => p.2.2 < percentile20 (zsOf pts))
  { numPoints := pts.length
    numPlanes := numPlanes
    bboxMin := (listMin (xsOf pts), listMin (ysOf pts), listMin (zsOf pts))
    bboxMax := (listMax (xsOf pts), listMax (ysOf pts), listMax (zsOf pts))
    center := centroid pts
    areaM2 :=
      if 0 < fp.length then
        (listMax (xsOf fp) - listMin (xsOf fp)) *
          (listMax (ysOf fp) - listMin (ysOf fp))
      else 0
    heightM := listMax (zsOf pts) - listMin (zsOf pts) }

theorem qsum_eq_sum (l : List ℚ) : qsum l = l.sum := by
  induction l with
  | nil => rfl
  | cons a t ih => simp [qsum, List.sum_cons, ← ih]

/-- Claim C6: for every nonempty building point set, the metadata holds the
per-axis minimum and maximum as the bounding box (a componentwise bound on
every point, attained by some point), the arithmetic mean as the centroid
(`center · n = Σ points`), the bounding-box z-extent as the height, and the
x-extent times y-extent of the strictly-below-20th-percentile subset as the
footprint area (`0` when that subset is empty). -/
theorem c6_metadata (pts : List Q3) (k : ℕ) (hne : pts ≠ []) :
    (∀ p ∈ pts,
      ((compute_building_metadata pts k).bboxMin.1 ≤ p.1 ∧
        (compute_building_metadata pts k).bboxMin.2.1 ≤ p.2.1 ∧
        (compute_building_metadata pts k).bboxMin.2.2 ≤ p.2.2) ∧
      (p.1 ≤ (compute_building_metadata pts k).bboxMax.1 ∧
        p.2.1 ≤ (compute_building_metadata pts k).bboxMax.2.1 ∧
        p.2.2 ≤ (compute_building_metadata pts k).bboxMax.2.2)) ∧
    ((compute_building_metadata pts k).bboxMin.1 ∈ xsOf pts ∧
      (compute_building_metadata pts k).bboxMin.2.1 ∈ ysOf pts ∧
      (compute_building_metadata pts k).bboxMin.2.2 ∈ zsOf pts ∧
      (compute_building_metadata pts k).bboxMax.1 ∈ xsOf pts ∧
      (compute_building_metadata pts k).bboxMax.2.1 ∈ ysOf pts ∧
      (compute_building_metadata pts k).bboxMax.2.2 ∈ zsOf pts) ∧
    ((compute_building_metadata pts k).center.1 * pts.length =
        (xsOf pts).sum ∧
      (compute_building_metadata pts k).center.2.1 * pts.length =
        (ysOf pts).sum ∧
      (compute_building_metadata pts k).center.2.2 * pts.length =
        (zsOf pts).sum) ∧
    (compute_building_metadata pts k).heightM =
      (compute_building_metadata pts k).bboxMax.2.2 -
        (compute_building_metadata pts k).bboxMin.2.2 ∧
    (∀ fp, fp = pts.filter (fun p => p.2.2 < percentile20 (zsOf pts)) →
      (fp ≠ [] →
        (compute_building_metadata pts k).areaM2 =
          (listMax (xsOf fp) - listMin (xsOf fp)) *
            (listMax (ysOf fp) - listMin (ysOf fp))) ∧
      (fp = [] → (compute_building_metadata pts k).areaM2 = 0)) := by
  have hxs : xsOf pts ≠ [] := by
    unfold xsOf; intro h; rw [List.map_eq_nil_iff] at h; exact hne h
  have hys : ysOf pts ≠ [] := by
    unfold ysOf; intro h; rw [List.map_eq_nil_iff] at h; exact hne h
  have hzs : zsOf pts ≠ [] := by
    unfold zsOf; intro h; rw [List.map_eq_nil_iff] at h; exact hne h
  have hn : (pts.length : ℚ) ≠ 0 := by
    have : 0 < pts.length := List.length_pos.mpr hne
    exact_mod_cast Nat.pos_iff_ne_zero.mp this
  refine ⟨?_, ?_, ?_, rfl, ?_⟩
  · intro p hp
    exact ⟨⟨listMin_le (List.mem_map_of_mem _ hp),
        listMin_le (List.mem_map_of_mem _ hp),
        listMin_le (List.mem_map_of_mem _ hp)⟩,
      le_listMax (List.mem_map_of_mem _ hp),
      le_listMax (List.mem_map_of_mem _ hp),
      le_listMax (List.mem_map_of_mem _ hp)⟩
  · exact ⟨listMin_mem hxs, listMin_mem hys, listMin_mem hzs,
      listMax_mem hxs, listMax_mem hys, listMax_mem hzs⟩
  · refine ⟨?_, ?_, ?_⟩ <;>
      simp only [compute_building_metadata, centroid, qsum_eq_sum] <;>
      exact div_mul_cancel₀ _ hn
  · intro fp hfp
    constructor
    · intro hfpne
      have hpos : 0 < fp.length := List.length_pos.mpr hfpne
      simp only [compute_building_metadata]
      rw [← hfp, if_pos hpos]
    · intro hfpnil
      simp only [compute_building_metadata]
      rw [← hfp, hfpnil]
      simp

/-- Witness for C6 at a concrete three-point input, instantiated at the
point `(2, 1, 4)`. -/
theorem c6_metadata_witness :
    ((compute_building_metadata [((0 : ℚ), 0, 0), (2, 1, 4), (1, 3, 2)]
          2).bboxMin.1 ≤ (2 : ℚ) ∧
        (compute_building_metadata [((0 : ℚ), 0, 0), (2, 1, 4), (1, 3, 2)]
          2).bboxMin.2.1 ≤ (1 : ℚ) ∧
        (compute_building_metadata [((0 : ℚ), 0, 0), (2, 1, 4), (1, 3, 2)]
          2).bboxMin.2.2 ≤ (4 : ℚ)) ∧
      ((2 : ℚ) ≤ (compute_building_metadata
          [((0 : ℚ), 0, 0), (2, 1, 4), (1, 3, 2)] 2).bboxMax.1 ∧
        (1 : ℚ) ≤ (compute_building_metadata
          [((0 : ℚ), 0, 0), (2, 1, 4), (1, 3, 2)] 2).bboxMax.2.1 ∧
        (4 : ℚ) ≤ (compute_building_metadata
          [((0 : ℚ), 0, 0), (2, 1, 4), (1, 3, 2)] 2).bboxMax.2.2) :=
  (c6_metadata [((0 : ℚ), 0, 0), (2, 1, 4), (1, 3, 2)] 2 (by simp)).1
    ((2 : ℚ), 1, 4) (by simp)

/-- Claim C10: when no point has z strictly below the 20th height
percentile (for example when all z coordinates coincide), the strict
less-than footprint filter is empty and the metadata computation returns
footprint area `0.0` without failing. -/
theorem c10_empty_footprint (pts : List Q3) (k : ℕ)
    (h : ∀ p ∈ pts, ¬(p.2.2 < percentile20 (zsOf pts))) :
    (compute_building_metadata pts k).areaM2 = 0 := by
  have hnil : pts.filter (fun p => p.2.2 < percentile20 (zsOf pts)) = [] := by
    rw [List.filter_eq_nil_iff]
    intro p hp
    simpa using h p hp
  simp only [compute_building_metadata]
  rw [hnil]
  simp

/-- Witness for C10: three points sharing z = 5; the 20th percentile is 5,
no z is strictly below it, and the area is 0. -/
theorem c10_empty_footprint_witness :
    (compute_building_metadata [((0 : ℚ), 0, 5), (1, 2, 5), (3, 1, 5)]
      1).areaM2 = 0 :=
  c10_empty_footprint [((0 : ℚ), 0, 5), (1, 2, 5), (3, 1, 5)] 1
    (by with_unfolding_all decide)

/-! ### MeshBuilder (`create_building_mesh_with_courtyards`, lines 440-477) -/

/-- A triangle mesh: vertex list and triangle index triples (the shape of
the `o3d.geometry.TriangleMesh` objects the source hands around). -/
structure Mesh where
  vertices : List Q3
  triangles : List (ℕ × ℕ × ℕ)
deriving DecidableEq

/-- The empty mesh (`o3d.geometry.TriangleMesh()`, source line 477). -/
def emptyMesh : Mesh := ⟨[], []⟩

/-- Modelled from the spec: the two external meshing pipelines invoked by
`create_building_mesh_with_courtyards` — the Poisson block (normal
estimation, orientation, `create_from_point_cloud_poisson` and cleanup,
source lines 452-468) and the alpha-shape block
(`create_from_point_cloud_alpha_shape` plus vertex normals, lines
472-475).  `none` models the block raising an exception, which the source
catches. -/
structure MeshOracles where
  poisson : List Q3 → Option Mesh
  alphaShape : List Q3 → Option Mesh

/-- `create_building_mesh_with_courtyards` (source lines 440-477): inputs
above 20000 points are first voxel-downsampled (voxel size 0.2); then the
Poisson block runs; if it raises, the alpha-shape block runs; if that also
raises, the empty mesh is returned. -/
def create_building_mesh_with_courtyards (O : MeshOracles) (pts : List Q3) :
    Mesh :=
  let p := if 20000 < pts.length then voxelCentroids (1/5) pts else pts
  match O.poisson p with
  | some m => m
  | none =>
    match O.alphaShape p with
    | some m => m
    | none => emptyMesh

/-- The reconstruction chain as the claim states it, written from the
spec's words for the refinement comparison: a plane-based mesh from the
extracted planes, then — when fewer than 3 usable planes were extracted or
the previous strategy failed — a convex-hull mesh of the full point set,
then an empty mesh. -/
def claimedMeshChain (planes : List (Plane × ℕ))
    (planeBased hull : Option Mesh) : Mesh :=
  if 3 ≤ planes.length then
    match planeBased with
    | some m => m
    | none => match hull with | some m => m | none => emptyMesh
  else
    match hull with | some m => m | none => emptyMesh

/-- Claim C3 (amended): mesh reconstruction follows the ordered fallback
chain Poisson surface reconstruction → alpha-shape mesh → empty mesh, each
strategy tried on failure (exception) of the previous one, so a mesh
object is always returned and no failure aborts the building; the
extracted planes play no part in mesh construction. -/
theorem c3_mesh_fallback (O : MeshOracles) (pts : List Q3) :
    (∀ m, O.poisson
        (if 20000 < pts.length then voxelCentroids (1/5) pts else pts) =
          some m →
      create_building_mesh_with_courtyards O pts = m) ∧
    (O.poisson
        (if 20000 < pts.length then voxelCentroids (1/5) pts else pts) =
          none →
      ∀ m, O.alphaShape
        (if 20000 < pts.length then voxelCentroids (1/5) pts else pts) =
          some m →
      create_building_mesh_with_courtyards O pts = m) ∧
    (O.poisson
        (if 20000 < pts.length then voxelCentroids (1/5) pts else pts) =
          none →
      O.alphaShape
        (if 20000 < pts.length then voxelCentroids (1/5) pts else pts) =
          none →
      create_building_mesh_with_courtyards O pts = emptyMesh) := by
  unfold create_building_mesh_with_courtyards
  refine ⟨?_, ?_, ?_⟩
  · intro m hm
    simp only [hm]
  · intro hp m hm
    simp only [hp, hm]
  · intro hp hm
    simp only [hp, hm]

/-- Counterexample for C3 as stated: a one-point building on which the
Poisson block fails and the alpha-shape block succeeds.  The code returns
the alpha-shape mesh; the claimed plane-based/convex-hull chain (fewer
than 3 planes were extracted, so it prescribes the convex-hull mesh of the
point set) returns a different mesh. -/
theorem c3_counterexample :
    create_building_mesh_with_courtyards
        ⟨fun _ => none, fun _ => some ⟨[((0 : ℚ), 0, 0)], []⟩⟩
        [((0 : ℚ), 0, 0)] =
      ⟨[((0 : ℚ), 0, 0)], []⟩ ∧
    (extract_planes_ransac (3/10) ⟨fun _ => none⟩
        [((0 : ℚ), 0, 0)]).length < 3 ∧
    claimedMeshChain
        (extract_planes_ransac (3/10) ⟨fun _ => none⟩ [((0 : ℚ), 0, 0)])
        none (some ⟨[((1 : ℚ), 0, 0)], []⟩) =
      ⟨[((1 : ℚ), 0, 0)], []⟩ ∧
    create_building_mesh_with_courtyards
        ⟨fun _ => none, fun _ => some ⟨[((0 : ℚ), 0, 0)], []⟩⟩
        [((0 : ℚ), 0, 0)] ≠
      claimedMeshChain
        (extract_planes_ransac (3/10) ⟨fun _ => none⟩ [((0 : ℚ), 0, 0)])
        none (some ⟨[((1 : ℚ), 0, 0)], []⟩) := by
  with_unfolding_all decide

/-- Witness for C3 (amended): when both blocks fail the empty mesh is
returned, and when the Poisson block succeeds its mesh is returned. -/
theorem c3_mesh_fallback_witness :
    create_building_mesh_with_courtyards
        ⟨fun _ => none, fun _ => none⟩ [((0 : ℚ), 0, 0)] = emptyMesh ∧
      create_building_mesh_with_courtyards
        ⟨fun _ => some ⟨[((2 : ℚ), 0, 0)], []⟩, fun _ => none⟩
        [((0 : ℚ), 0, 0)] = ⟨[((2 : ℚ), 0, 0)], []⟩ :=
  ⟨(c3_mesh_fallback ⟨fun _ => none, fun _ => none⟩ [((0 : ℚ), 0, 0)]).2.2
      rfl rfl,
    (c3_mesh_fallback ⟨fun _ => some ⟨[((2 : ℚ), 0, 0)], []⟩, fun _ => none⟩
      [((0 : ℚ), 0, 0)]).1 ⟨[((2 : ℚ), 0, 0)], []⟩ rfl⟩

/-! ### Pipeline orchestration (`process_all`, lines 528-612) -/

/-- One loaded file as the pipeline sees it: per-point coordinates with
LAS classification codes (`load_point_cloud`'s output). -/
abbrev LoadedFile := List (Q3 × ℕ)

/-- `extract_buildings` (source lines 324-330): keep the points whose
classification equals LAS class 6 (building). -/
def extract_buildings (file : LoadedFile) : List Q3 :=
  (file.filter (fun r => r.2 = 6)).map Prod.fst

/-- The segmentation parameters of `OptimizedBuildingProcessor`
(constructor lines 78-107), with the modelled voxel size for the
downsampler. -/
structure SegParams where
  eps : ℚ
  minPts : ℕ
  gridSize : ℚ
  cap : ℕ
  vox : ℚ

/-- The per-file loop of `process_all` (source lines 542-600), restricted
to its data flow: a file with no building-class points produces a
diagnostic and is skipped (`logger.warning` + `continue`, lines 552-554,
counted in the second component); otherwise its building points are
segmented and the buildings numbered by the running `building_counter`
(ids are `counter+1, counter+2, …`). -/
def processFiles (P : SegParams) :
    List LoadedFile → ℕ → List (ℕ × List Q3) × ℕ
  | [], _ => ([], 0)
  | f :: rest, counter =>
    if extract_buildings f = [] then
      let r := processFiles P rest counter
      (r.1, r.2 + 1)
    else
      let bs := segment_buildings_optimized (extract_buildings f) P.eps
        P.minPts P.gridSize P.cap P.vox
      let numbered := bs.enum.map (fun ib => (counter + 1 + ib.1, ib.2))
      let r := processFiles P rest (counter + bs.length)
      (numbered ++ r.1, r.2)

/-- `process_all` over a batch of loaded files, starting from
`building_counter = 0` (source line 540). -/
def process_all (P : SegParams) (files : List LoadedFile) :
    List (ℕ × List Q3) × ℕ :=
  processFiles P files 0

theorem processFiles_cons (P : SegParams) (f : LoadedFile)
    (rest : List LoadedFile) (counter : ℕ) :
    processFiles P (f :: rest) counter =
      if extract_buildings f = [] then
        ((processFiles P rest counter).1,
          (processFiles P rest counter).2 + 1)
      else
        ((segment_buildings_optimized (extract_buildings f) P.eps P.minPts
              P.gridSize P.cap P.vox).enum.map
            (fun ib => (counter + 1 + ib.1, ib.2)) ++
          (processFiles P rest
            (counter + (segment_buildings_optimized (extract_buildings f)
              P.eps P.minPts P.gridSize P.cap P.vox).length)).1,
          (processFiles P rest
            (counter + (segment_buildings_optimized (extract_buildings f)
              P.eps P.minPts P.gridSize P.cap P.vox).length)).2) := rfl

theorem processFiles_skip (P : SegParams) (post : List LoadedFile)
    (f : LoadedFile) (hf : extract_buildings f = []) :
    ∀ (pre : List LoadedFile) (counter : ℕ),
      processFiles P (pre ++ f :: post) counter =
        ((processFiles P (pre ++ post) counter).1,
          (processFiles P (pre ++ post) counter).2 + 1) := by
  intro pre
  induction pre with
  | nil =>
    intro counter
    rw [List.nil_append, List.nil_append, processFiles_cons, if_pos hf]
  | cons g t ih =>
    intro counter
    rw [List.cons_append, List.cons_append, processFiles_cons,
      processFiles_cons]
    by_cases hg : extract_buildings g = []
    · rw [if_pos hg, if_pos hg, ih counter]
    · rw [if_neg hg, if_neg hg, ih]

/-- Claim C9: a loaded file containing zero building-class points yields a
diagnostic (one more skipped-file report), is skipped, and contributes no
buildings: the pipeline's building output over the batch equals the output
over the batch without that file (so later files are still processed and
identically numbered), and nothing fails. -/
theorem c9_empty_file_skipped (P : SegParams) (pre post : List LoadedFile)
    (f : LoadedFile) (hf : extract_buildings f = []) :
    (process_all P (pre ++ f :: post)).1 = (process_all P (pre ++ post)).1 ∧
      (process_all P (pre ++ f :: post)).2 =
        (process_all P (pre ++ post)).2 + 1 := by
  unfold process_all
  rw [processFiles_skip P post f hf pre 0]
  exact ⟨rfl, rfl⟩

/-- Witness for C9: one file whose single point is ground-classified
(class 2): it produces no buildings and one diagnostic. -/
theorem c9_empty_file_skipped_witness :
    (process_all ⟨17/2, 100, 100, 50000, 1⟩
        ([] ++ [(((0 : ℚ), 0, 0), 2)] :: [])).1 =
      (process_all ⟨17/2, 100, 100, 50000, 1⟩ ([] ++ [])).1 ∧
      (process_all ⟨17/2, 100, 100, 50000, 1⟩
        ([] ++ [(((0 : ℚ), 0, 0), 2)] :: [])).2 =
        (process_all ⟨17/2, 100, 100, 50000, 1⟩ ([] ++ [])).2 + 1 :=
  c9_empty_file_skipped ⟨17/2, 100, 100, 50000, 1⟩ [] []
    [(((0 : ℚ), 0, 0), 2)] (by with_unfolding_all decide)

end LidarViewer
